import Mathlib

/-!
# Verification of the MCP2OSC OSC codec

Shallow embedding of the OSC encoding/decoding routines of the MCP2OSC
repository, together with proofs and refutations of the frozen claims
about them.

Buffers (`Node.js Buffer`) are modelled as `List ℕ` of byte values;
offsets into a buffer are natural numbers.  JavaScript 32-bit float
values are identified with their big-endian 32-bit patterns (a `ℕ`
below `2^32`), which is exactly the information `writeFloatBE` stores
and `readFloatBE` retrieves; rational arithmetic with an explicit
`Math.round` model stands in for IEEE double arithmetic where the
source computes timetag fractions (the analysed quantities are far
from rounding ties, so the models agree; see `jsRound`).

Sources embedded:
* `src/mcp-server-maxmsp-compatible.js`: `parseOSCAddress`,
  `isOSCBundle`, `handleOSCBundle` (element loop), `parseOSCTimetag`,
  `parseOSCArgs`, `createOSCMessage`, `padTo4Bytes`, `createOSCBundle`,
  `createOSCTimetag`.
* `src/stop.js` lines 419–453: `parseOSCMessage` (the `OSCManager`
  variant, with `roundUpTo4`).
* `src/unnamed/part_005` lines 1628–1706: `parseOSCMessage`.
-/

namespace MCP2OSC

/-- `roundUpTo4` from `src/stop.js`: `(n + 3) & ~3`, i.e. the least
multiple of 4 that is `≥ n` (for the non-negative 32-bit inputs that
occur; the bitwise form equals `(n + 3) / 4 * 4` there). -/
def roundUpTo4 (n : ℕ) : ℕ := (n + 3) / 4 * 4

/-- `padTo4Bytes` (identical in all three source files): append
`(4 - len % 4) % 4` zero bytes. -/
def padTo4Bytes (b : List ℕ) : List ℕ :=
  b ++ List.replicate ((4 - b.length % 4) % 4) 0

/-- Big-endian bytes of a 32-bit unsigned word, as written by
`Buffer.writeUInt32BE` (the callers below guard the `w < 2^32` range
check that Node performs). -/
def uint32bytes (w : ℕ) : List ℕ :=
  [w / 16777216 % 256, w / 65536 % 256, w / 256 % 256, w % 256]

/-- Big-endian bytes written by `Buffer.writeInt32BE` for an in-range
signed 32-bit integer: the two's-complement pattern `n mod 2^32`. -/
def int32bytes (n : ℤ) : List ℕ := uint32bytes (n % 4294967296).toNat

/-- Value returned by `Buffer.readInt32BE`, as a function of the
unsigned 32-bit word at the same position. -/
def toSigned (w : ℕ) : ℤ :=
  if w < 2147483648 then (w : ℤ) else (w : ℤ) - 4294967296

/-- `Buffer.readUInt32BE(offset)`: the big-endian word formed by the
four bytes at `offset`.  All call sites below are guarded so that the
four bytes exist (Node throws otherwise); the default `0` is never
relied upon in the theorems. -/
def readUInt32 (buf : List ℕ) (off : ℕ) : ℕ :=
  buf.getD off 0 * 16777216 + buf.getD (off + 1) 0 * 65536 +
    buf.getD (off + 2) 0 * 256 + buf.getD (off + 3) 0

/-- Index of the first zero byte of a list (its length when none). -/
def zeroIdx : List ℕ → ℕ
  | [] => 0
  | b :: r => if b = 0 then 0 else zeroIdx r + 1

/-- Position at which the scanning loop
`while (offset < buffer.length && buffer[offset] !== 0) offset++`
stops when started at `off`: the first zero byte at or after `off`,
or the end of the buffer. -/
def findZero (buf : List ℕ) (off : ℕ) : ℕ := off + zeroIdx (buf.drop off)

/-- Bytes collected by the same loop
(`str += String.fromCharCode(buffer[offset])`): the bytes from `off`
up to the first zero byte or the end of the buffer.  `String.fromCharCode`
is injective on byte values, so the JS string is identified with its
byte list. -/
def scanToZero (buf : List ℕ) (off : ℕ) : List ℕ :=
  (buf.drop off).takeWhile (fun b => b ≠ 0)

/-- One step of the padding loop
`while (offset % 4 !== 0 && offset < buffer.length) offset++`,
with fuel; three steps always suffice because `offset % 4` reaches 0
after at most three increments. -/
def skipPadAux (buf : List ℕ) : ℕ → ℕ → ℕ
  | 0, off => off
  | fuel + 1, off =>
      if off % 4 ≠ 0 ∧ off < buf.length then skipPadAux buf fuel (off + 1) else off

/-- Position at which the padding-skip loop stops. -/
def skipPad (buf : List ℕ) (off : ℕ) : ℕ := skipPadAux buf 3 off

/-- `buffer.subarray(s, e)` for non-negative clamped indices: the bytes
in `[s, e)`, clamped to the buffer. -/
def jsSubarray (buf : List ℕ) (s e : ℕ) : List ℕ := (buf.take e).drop s

/-- `buffer.indexOf(0, off)` : `some i` for the first zero byte at or
after `off`, `none` standing for the `-1` result. -/
def jsIndexOfZero (buf : List ℕ) (off : ℕ) : Option ℕ :=
  let i := findZero buf off
  if i < buf.length then some i else none

/-! ## JavaScript strings

A JS string is a sequence of UTF-16 code units; it is modelled as a
`List ℕ` of code units (each `< 2^16`).  Three different conversions
between strings and bytes occur in the sources and must be kept apart:
`Buffer.from(str)` UTF-8-encodes the string; `String.fromCharCode(b)`
turns one byte into one code unit (so a byte-by-byte scan yields a
string whose code units are the raw bytes); `buffer.toString()`
UTF-8-decodes the bytes.  The three only agree on ASCII. -/

/-- UTF-8 bytes of one code unit, as `Buffer.from` produces for
strings of scalar values below `2^16`.  Lone surrogates (which Node
replaces with `EF BF BD`) are outside the faithful domain; every
theorem's hypotheses exclude them via `validUnit`. -/
def utf8EncodeChar (c : ℕ) : List ℕ :=
  if c < 128 then [c]
  else if c < 2048 then [192 + c / 64, 128 + c % 64]
  else [224 + c / 4096, 128 + c / 64 % 64, 128 + c % 64]

/-- UTF-8 bytes of a JS string (`Buffer.from(s)`). -/
def utf8Encode (s : List ℕ) : List ℕ := (s.map utf8EncodeChar).flatten

def utf8DecodeAux : ℕ → List ℕ → List ℕ
  | 0, _ => []
  | _ + 1, [] => []
  | fuel + 1, b :: r =>
      if b < 128 then b :: utf8DecodeAux fuel r
      else if b < 192 then 65533 :: utf8DecodeAux fuel r
      else if b < 224 then
        ((b - 192) * 64 + (r.headD 0 - 128)) :: utf8DecodeAux fuel (r.drop 1)
      else if b < 240 then
        ((b - 224) * 4096 + (r.headD 0 - 128) * 64 + ((r.drop 1).headD 0 - 128)) ::
          utf8DecodeAux fuel (r.drop 2)
      else
        (55296 + ((b - 240) * 262144 + (r.headD 0 - 128) * 4096 +
            ((r.drop 1).headD 0 - 128) * 64 + ((r.drop 2).headD 0 - 128) - 65536) / 1024) ::
          (56320 + ((b - 240) * 262144 + (r.headD 0 - 128) * 4096 +
            ((r.drop 1).headD 0 - 128) * 64 + ((r.drop 2).headD 0 - 128) - 65536) % 1024) ::
            utf8DecodeAux fuel (r.drop 3)

/-- `buffer.toString()` (UTF-8 decode), returning the resulting JS
string's UTF-16 code units.  Each step consumes the lead byte and the
continuation bytes its class declares (the fuel, one unit per byte, is
never exhausted).  Faithful on well-formed UTF-8: 1–3-byte sequences
give one code unit, 4-byte sequences give a surrogate pair, a stray
continuation byte gives U+FFFD.  Node's replacement-character policy
for other malformed sequences (truncated tails read as zero bytes
here) is only approximated, and no theorem relies on malformed
input. -/
def utf8Decode (bytes : List ℕ) : List ℕ := utf8DecodeAux bytes.length bytes

/-- A UTF-16 code unit on which `Buffer.from` is a plain UTF-8 encode:
below `2^16` and not a lone surrogate. -/
def validUnit (c : ℕ) : Bool :=
  decide (c < 55296) || (decide (57343 < c) && decide (c < 65536))

/-! ## The OSC value model -/

/-- OSC argument values in the domain of the claims: 32-bit integers,
32-bit floats (by bit pattern), strings (as JS strings: lists of
UTF-16 code units), booleans and nil. -/
inductive OscValue where
  | i32 (n : ℤ)
  | f32 (bits : ℕ)
  | str (s : List ℕ)
  | boolean (b : Bool)
  | nil
  deriving DecidableEq, Repr

/-- JavaScript values produced by the decoders: numbers read by
`readInt32BE` (as `ℤ`), numbers read by `readFloatBE` (by their 32-bit
pattern), strings (lists of UTF-16 code units), booleans, and `null`. -/
inductive JSVal where
  | int (n : ℤ)
  | float (bits : ℕ)
  | str (s : List ℕ)
  | bool (b : Bool)
  | null
  deriving DecidableEq, Repr

/-- The JS value equal to the encoder's input value: the comparison
target when a claim says decoding recovers the message "value for
value".  The byte-level decoders reproduce it only under conditions
made explicit in each theorem (ASCII strings for the
`String.fromCharCode` scanners, valid code units for the UTF-8
`toString` path); see `decodedVal` for what the per-byte scanners
actually return. -/
def toJSVal : OscValue → JSVal
  | .i32 n => .int n
  | .f32 w => .float w
  | .str s => .str s
  | .boolean b => .bool b
  | .nil => .null

/-- The JS value the byte-by-byte decoders (`parseOSCArgs` and
`part_005`'s `parseOSCMessage`, both building strings with
`String.fromCharCode` per byte) produce for an encoded value: a
string argument comes back as the code units of its raw UTF-8 payload
bytes, which differ from the original string beyond ASCII. -/
def decodedVal : OscValue → JSVal
  | .i32 n => .int n
  | .f32 w => .float w
  | .str s => .str (utf8Encode s)
  | .boolean b => .bool b
  | .nil => .null

/-- Canonical caller-supplied type tag for each OSC-typed value
(`'i' = 105`, `'f' = 102`, `'s' = 115`, `'T' = 84`, `'F' = 70`,
`'N' = 78`).  These tags reach `createOSCMessage` only through the
tool's `type_tags` parameter (validated against `/^[ifsbtTFNI]*$/` at
lines 885–887 and used verbatim as `typeTags[index]` at line 1215);
they are the only way the code can express `Float32` as `'f'` for an
integer-valued float, or `Nil` as `'N'`.  The code's own automatic
inference is different and is modelled separately as `inferTag`
(see C3). -/
def oscTypeTag : OscValue → ℕ
  | .i32 _ => 105
  | .f32 _ => 102
  | .str _ => 115
  | .boolean true => 84
  | .boolean false => 70
  | .nil => 78

/-- `Number.isInteger` on the float64 value denoted by a 32-bit float
pattern: false for NaN and infinities (exponent 255), true for ±0 and
for finite values whose fractional mantissa bits vanish. -/
def f32IsInteger (w : ℕ) : Bool :=
  let e := w / 8388608 % 256
  let m := w % 8388608
  if e = 255 then false
  else if e = 0 then m == 0
  else if 150 ≤ e then true
  else if 127 ≤ e then m % 2 ^ (150 - e) == 0
  else false

/-- The tag the code infers when no `type_tags` are supplied
(`sendOSCMessages` lines 894–907, and equivalently the inline
inference in `createOSCMessage` lines 1201–1209): a number gets `'i'`
when `Number.isInteger` holds and `'f'` otherwise, a string `'s'`, a
boolean `'T'`/`'F'`, and anything else — in particular `null` —
defaults to `'s'`.  It never produces `'N'`, and maps an
integer-valued `Float32` such as `440.0` to `'i'`. -/
def inferTag : OscValue → ℕ
  | .i32 _ => 105
  | .f32 w => if f32IsInteger w then 105 else 102
  | .str _ => 115
  | .boolean true => 84
  | .boolean false => 70
  | .nil => 115

/-- Argument payload bytes produced by `createOSCMessage`'s `switch`
for each (tag, value) pair: `'i'` → `writeInt32BE`, `'f'` →
`writeFloatBE` (the stored 32-bit pattern), `'s'` →
`Buffer.from(String(value) + '\0')` padded — a UTF-8 encode of the
string followed by NUL — and `'T'`/`'F'`/`'N'` → `Buffer.alloc(0)`. -/
def oscArgBytes : OscValue → List ℕ
  | .i32 n => int32bytes n
  | .f32 w => uint32bytes w
  | .str s => padTo4Bytes (utf8Encode s ++ [0])
  | .boolean _ => []
  | .nil => []

/-- Concatenated argument payloads of a message. -/
def payloadBytes (args : List OscValue) : List ℕ :=
  (args.map oscArgBytes).flatten

/-- `createOSCMessage(address, values, typeTags)` from
`src/mcp-server-maxmsp-compatible.js` (lines 1195–1243), specialised to
the calls whose `typeTags` are the canonical tags of OSC-typed values
(the caller-supplied `type_tags` route; with tags present,
`typeTags[index]` resolves to exactly these, and they are the only way
to obtain `'f'` for an integer-valued float or `'N'` for nil — the
no-tags inference path is `inferTag`, see C3).  The address is
`Buffer.from(address + '\0')`, a UTF-8 encode, padded; then `','`
(= 44) followed by the tags, NUL-terminated and padded; then the
argument payloads. -/
def createOSCMessage (address : List ℕ) (values : List OscValue) : List ℕ :=
  padTo4Bytes (utf8Encode address ++ [0]) ++
    padTo4Bytes (44 :: values.map oscTypeTag ++ [0]) ++
    payloadBytes values

/-- The fixed-layout front matter of an encoded message: padded
NUL-terminated address followed by the padded `','`-led type-tag
string.  `createOSCMessage addr args = msgHeader addr args ++
payloadBytes args`; truncating an encoded message at an argument
boundary keeps this header intact. -/
def msgHeader (address : List ℕ) (values : List OscValue) : List ℕ :=
  padTo4Bytes (utf8Encode address ++ [0]) ++
    padTo4Bytes (44 :: values.map oscTypeTag ++ [0])

/-- Whether a value has a zero-length payload (tags `T`, `F`, `N`). -/
def isTFN : OscValue → Bool
  | .boolean _ => true
  | .nil => true
  | _ => false

/-- Well-formedness of a single value with respect to what the Node
writers accept and what survives byte-level storage: in-range signed
32-bit integers, 32-bit float patterns, and strings whose code units
are NUL-free and valid (16-bit, no lone surrogates — the domain on
which `Buffer.from` is plain UTF-8). -/
def WFValue : OscValue → Bool
  | .i32 n => decide (-2147483648 ≤ n) && decide (n < 2147483648)
  | .f32 w => decide (w < 4294967296)
  | .str s => s.all (fun c => decide (c ≠ 0) && validUnit c)
  | .boolean _ => true
  | .nil => true

/-- Whether a value's string content is ASCII; non-string values count
as ASCII.  On ASCII strings the UTF-8 bytes coincide with the code
units, so the `String.fromCharCode` scanners invert the encoder. -/
def asciiStr : OscValue → Bool
  | .str s => s.all (fun c => decide (c < 128))
  | _ => true

/-- Remove the maximal trailing run of `T`/`F`/`N`-tagged values. -/
def trimTFN : List OscValue → List OscValue
  | [] => []
  | a :: l =>
      match trimTFN l with
      | [] => if isTFN a then [] else [a]
      | l' => a :: l'

/-- Spec mapping `tag_for` stated in the specification:
`Int32→'i'`, `Float32→'f'`, `Str→'s'`, `Bool(true)→'T'`,
`Bool(false)→'F'`, `Nil→'N'` (byte values of the tag characters).
Stated separately from `oscTypeTag` so the encoder's tag choice can be
compared against the spec's mapping. -/
def specTagFor : OscValue → ℕ
  | .i32 _ => 105
  | .f32 _ => 102
  | .str _ => 115
  | .boolean true => 84
  | .boolean false => 70
  | .nil => 78

/-! ## The `mcp-server-maxmsp-compatible.js` decoder -/

/-- `'/unknown'` as bytes. -/
def unknownAddress : List ℕ := [47, 117, 110, 107, 110, 111, 119, 110]

/-- `parseOSCAddress` (lines 140–147): `buffer.slice(0, nullIndex)
.toString('utf8')` — a UTF-8 decode of the bytes before the first NUL
— when the NUL index is positive, `'/unknown'` otherwise (first byte
NUL, or no NUL found, i.e. `indexOf` returned `-1`).  The `catch`
branch (`'/parse-error'`) is unreachable: no operation used can
throw. -/
def parseOSCAddress (buf : List ℕ) : List ℕ :=
  match jsIndexOfZero buf 0 with
  | some i => if 0 < i then utf8Decode (buf.take i) else unknownAddress
  | none => unknownAddress

/-- Argument loop of `parseOSCArgs` (lines 314–353): for each type-tag
byte, first `if (offset + 4 > buffer.length) break;`, then the
`switch`.  Unknown tags advance the offset by 4 and push nothing;
`T`/`F`/`N` push without advancing. -/
def parseArgsLoop (buf : List ℕ) : List ℕ → ℕ → List JSVal
  | [], _ => []
  | t :: ts, off =>
      if buf.length < off + 4 then []
      else if t = 105 then
        JSVal.int (toSigned (readUInt32 buf off)) :: parseArgsLoop buf ts (off + 4)
      else if t = 102 then
        JSVal.float (readUInt32 buf off) :: parseArgsLoop buf ts (off + 4)
      else if t = 115 then
        JSVal.str (scanToZero buf off) ::
          parseArgsLoop buf ts (skipPad buf (findZero buf off + 1))
      else if t = 84 then JSVal.bool true :: parseArgsLoop buf ts off
      else if t = 70 then JSVal.bool false :: parseArgsLoop buf ts off
      else if t = 78 then JSVal.null :: parseArgsLoop buf ts off
      else parseArgsLoop buf ts (off + 4)

/-- `parseOSCArgs` (lines 288–360): skip the address up to its NUL,
skip padding, read the `','`-led type-tag string, skip padding, then
run the argument loop.  The surrounding `try`/`catch` is unreachable:
no operation used can throw, so the function is total as modelled. -/
def parseOSCArgs (buf : List ℕ) : List JSVal :=
  let o1 := skipPad buf (findZero buf 0 + 1)
  if buf.length ≤ o1 then []
  else if buf.getD o1 0 = 44 then
    parseArgsLoop buf (scanToZero buf (o1 + 1))
      (skipPad buf (findZero buf (o1 + 1) + 1))
  else parseArgsLoop buf [] o1

/-! ## The `src/unnamed/part_005` decoder -/

/-- Argument loop of `parseOSCMessage` in `src/unnamed/part_005`
(lines 1664–1701): bounds checks are per-type (`i`/`f` only), `T`/`F`/`N`
push unconditionally, unknown tags are skipped without advancing. -/
def part005Loop (buf : List ℕ) : List ℕ → ℕ → List JSVal
  | [], _ => []
  | t :: ts, off =>
      if t = 105 then
        if off + 4 ≤ buf.length then
          JSVal.int (toSigned (readUInt32 buf off)) :: part005Loop buf ts (off + 4)
        else part005Loop buf ts off
      else if t = 102 then
        if off + 4 ≤ buf.length then
          JSVal.float (readUInt32 buf off) :: part005Loop buf ts (off + 4)
        else part005Loop buf ts off
      else if t = 115 then
        JSVal.str (scanToZero buf off) ::
          part005Loop buf ts (skipPad buf (findZero buf off + 1))
      else if t = 84 then JSVal.bool true :: part005Loop buf ts off
      else if t = 70 then JSVal.bool false :: part005Loop buf ts off
      else if t = 78 then JSVal.null :: part005Loop buf ts off
      else part005Loop buf ts off

/-- `parseOSCMessage` from `src/unnamed/part_005` (lines 1628–1706):
returns the address together with the decoded arguments.  Note that the
`offset++` skipping the type-tag terminator and the padding skip sit
outside the `if (buffer[offset] === 44)` test in this copy.  The `catch`
rethrow is unreachable: no operation used can throw. -/
def part005Parse (buf : List ℕ) : List ℕ × List JSVal :=
  let address := scanToZero buf 0
  let o1 := skipPad buf (findZero buf 0 + 1)
  if buf.length ≤ o1 then (address, [])
  else
    let p := if buf.getD o1 0 = 44 then
        (scanToZero buf (o1 + 1), findZero buf (o1 + 1))
      else ([], o1)
    (address, part005Loop buf p.1 (skipPad buf (p.2 + 1)))

/-! ## The `src/stop.js` decoder (lines 419–453) -/

/-- Argument loop of `parseOSCMessage` in `src/stop.js`: only `i`, `f`
and `s` tags are handled (all other tags fall through, pushing nothing
and leaving the offset unchanged) and there are no bounds checks:
`readInt32BE`/`readFloatBE` past the end of the buffer throw
`ERR_OUT_OF_RANGE`, modelled as `Except.error ()`.  String arguments
are decoded with `buffer.subarray(...).toString()` — a UTF-8 decode
(`utf8Decode`), unlike the byte-by-byte `String.fromCharCode` scan of
the other two decoders.  A `-1` from `indexOf` makes
`roundUpTo4(stringEnd + 1)` equal 0 and the `subarray` end clamp to
`length - 1`. -/
def stopLoop (buf : List ℕ) : List ℕ → ℕ → Except Unit (List JSVal)
  | [], _ => .ok []
  | t :: ts, off =>
      if t = 105 then
        if off + 4 ≤ buf.length then
          (stopLoop buf ts (off + 4)).map
            (fun args => JSVal.int (toSigned (readUInt32 buf off)) :: args)
        else .error ()
      else if t = 102 then
        if off + 4 ≤ buf.length then
          (stopLoop buf ts (off + 4)).map
            (fun args => JSVal.float (readUInt32 buf off) :: args)
        else .error ()
      else if t = 115 then
        let p := match jsIndexOfZero buf off with
          | some k => (jsSubarray buf off k, roundUpTo4 (k + 1))
          | none => (jsSubarray buf off (buf.length - 1), 0)
        (stopLoop buf ts p.2).map (fun args => JSVal.str (utf8Decode p.1) :: args)
      else stopLoop buf ts off

/-- `parseOSCMessage` from `src/stop.js` lines 419–453.  The address
is `buffer.subarray(0, addressEnd).toString()` — a UTF-8 decode,
unlike `part_005`'s byte-by-byte scan.  `indexOf` results of `-1` (no
NUL) propagate as `roundUpTo4(0) = 0` offsets and `subarray(…, -1)`
slices ending at `length - 1`.  There is no `try`/`catch`: a throw
from the loop escapes, modelled by `Except.error`. -/
def stopParseOSCMessage (buf : List ℕ) : Except Unit (List ℕ × List JSVal) :=
  let aEnd := jsIndexOfZero buf 0
  let address := match aEnd with
    | some i => utf8Decode (jsSubarray buf 0 i)
    | none => utf8Decode (jsSubarray buf 0 (buf.length - 1))
  let o1 := match aEnd with
    | some i => roundUpTo4 (i + 1)
    | none => 0
  let tEnd := jsIndexOfZero buf o1
  let typeTag := match tEnd with
    | some j => jsSubarray buf (o1 + 1) j
    | none => jsSubarray buf (o1 + 1) (buf.length - 1)
  let o2 := match tEnd with
    | some j => roundUpTo4 (j + 1)
    | none => 0
  (stopLoop buf typeTag o2).map (fun args => (address, args))

/-! ## Timetags -/

/-- `Math.round` on the rationals that arise in the timetag code:
`⌊q + 1/2⌋` (JavaScript rounds half-integers towards `+∞`).  The
source computes with IEEE doubles; for the quantities analysed here
the double results round identically to the exact rational results
(the decode direction can never produce an exact tie because
`2000·fraction` is even while odd multiples of `0xFFFFFFFF` are odd,
and in the encode direction the five residues `m ≡ 100 (mod 200)`
that produce exact ties were checked to round the same way in
binary64), so the rational model is faithful. -/
def jsRound (q : ℚ) : ℤ := ⌊q + 1 / 2⌋

/-- `createOSCTimetag(timestamp)` (lines 1277–1300): `0` encodes the
immediate tag `(0, 1)`; otherwise seconds since 1900 and a rounded
32-bit fraction.  `writeUInt32BE` throws `ERR_OUT_OF_RANGE` outside
`[0, 2^32)`, modelled as `none`. -/
def createOSCTimetag (timestamp : ℕ) : Option (List ℕ) :=
  if timestamp = 0 then some (uint32bytes 0 ++ uint32bytes 1)
  else
    let ntpSeconds := timestamp / 1000 + 2208988800
    let ntpFraction := jsRound (((timestamp % 1000 : ℕ) : ℚ) / 1000 * 4294967295)
    if ntpSeconds < 4294967296 ∧ 0 ≤ ntpFraction ∧ ntpFraction < 4294967296 then
      some (uint32bytes ntpSeconds ++ uint32bytes ntpFraction.toNat)
    else none

/-- `parseOSCTimetag(buffer)` (lines 272–286): read two 32-bit words,
subtract the 1900→1970 offset, round the fraction to milliseconds and
return the `Date`'s time value `unixSeconds * 1000 + milliseconds`.
There is no special case for the immediate pair `(0, 1)`. -/
def parseOSCTimetag (b : List ℕ) : ℤ :=
  ((readUInt32 b 0 : ℤ) - 2208988800) * 1000 +
    jsRound ((readUInt32 b 4 : ℚ) / 4294967295 * 1000)

/-- Timetag values as the specification describes decoding results:
either the `Immediate` sentinel or an absolute time in unix
milliseconds. -/
inductive OscTimetag where
  | immediate
  | atMs (ms : ℤ)
  deriving DecidableEq, Repr

/-- Modelled from the spec: the spec's decoder maps a decoded `(0,1)`
pair back to `Immediate`, and any other pair to `At(millis)` with the
NTP-to-Unix arithmetic; used only to compare the code's decoder
against the spec's words. -/
def specDecodeTimetag (b : List ℕ) : OscTimetag :=
  if readUInt32 b 0 = 0 ∧ readUInt32 b 4 = 1 then .immediate
  else .atMs (parseOSCTimetag b)

/-! ## Bundles -/

/-- `'#bundle\0'` as bytes. -/
def bundleHeaderBytes : List ℕ := [35, 98, 117, 110, 100, 108, 101, 0]

/-- `isOSCBundle` (lines 150–154): at least 8 bytes and the 8-byte
`'#bundle\0'` prefix. -/
def isOSCBundle (buf : List ℕ) : Bool :=
  decide (8 ≤ buf.length) && (buf.take 8 == bundleHeaderBytes)

/-- Element loop of `handleOSCBundle` (lines 176–210), collecting each
element's data bytes.  The fuel is `100 - elementCount`, enforcing the
`elementCount < 100` safety limit.  The loop `break`s (returning the
elements so far, not an error) when fewer than 4 bytes remain for a
size prefix, when a declared size is zero, or when a declared size
overruns the buffer. -/
def bundleElemsAux (buf : List ℕ) : ℕ → ℕ → List (List ℕ)
  | 0, _ => []
  | fuel + 1, off =>
      if off < buf.length then
        if buf.length < off + 4 then []
        else
          let size := readUInt32 buf off
          if size = 0 ∨ buf.length < off + 4 + size then []
          else
            jsSubarray buf (off + 4) (off + 4 + size) ::
              bundleElemsAux buf fuel (off + 4 + size)
      else []

/-- The element data blobs `handleOSCBundle` extracts from a bundle
buffer, starting after the 8-byte `'#bundle\0'` marker and the 8-byte
timetag. -/
def bundleElements (buf : List ℕ) : List (List ℕ) :=
  bundleElemsAux buf 100 16

/-- Size-prefixed concatenation of element blobs, the framing both
`createOSCBundle` produces and `handleOSCBundle` consumes. -/
def elemsBytes (es : List (List ℕ)) : List ℕ :=
  (es.map (fun e => uint32bytes e.length ++ e)).flatten

/-- `createOSCBundle(messages, timetag)` (lines 1250–1275): the
`'#bundle\0'` marker, the timetag bytes, then each message prefixed
with its 4-byte big-endian size.  A timetag Node cannot write makes
the whole construction fail (`none`). -/
def createOSCBundle (messages : List (List ℕ × List OscValue)) (timetag : ℕ) :
    Option (List ℕ) :=
  (createOSCTimetag timetag).map fun tb =>
    bundleHeaderBytes ++ tb ++
      elemsBytes (messages.map fun m => createOSCMessage m.1 m.2)

end MCP2OSC

namespace MCP2OSC

/-! ## Arithmetic and padding lemmas -/

theorem roundUpTo4_ge (n : ℕ) : n ≤ roundUpTo4 n := by
  unfold roundUpTo4; omega

theorem roundUpTo4_lt (n : ℕ) : roundUpTo4 n < n + 4 := by
  unfold roundUpTo4; omega

theorem roundUpTo4_mod (n : ℕ) : roundUpTo4 n % 4 = 0 := by
  unfold roundUpTo4; omega

theorem roundUpTo4_add (a n : ℕ) (h : a % 4 = 0) :
    roundUpTo4 (a + n) = a + roundUpTo4 n := by
  unfold roundUpTo4; omega

theorem roundUpTo4_of_mod (n : ℕ) (h : n % 4 = 0) : roundUpTo4 n = n := by
  unfold roundUpTo4; omega

theorem padTo4Bytes_length (b : List ℕ) :
    (padTo4Bytes b).length = roundUpTo4 b.length := by
  simp [padTo4Bytes, roundUpTo4]; omega

theorem padTo4Bytes_length_mod (b : List ℕ) : (padTo4Bytes b).length % 4 = 0 := by
  rw [padTo4Bytes_length]; exact roundUpTo4_mod _

theorem skipPad_eq (buf : List ℕ) (off : ℕ) (h : roundUpTo4 off ≤ buf.length) :
    skipPad buf off = roundUpTo4 off := by
  simp only [skipPad, skipPadAux, roundUpTo4] at *
  split_ifs <;> omega

/-! ## Scanning lemmas -/

theorem zeroIdx_append (m rest : List ℕ) (h : ∀ b ∈ m, b ≠ 0) :
    zeroIdx (m ++ 0 :: rest) = m.length := by
  induction m with
  | nil => simp [zeroIdx]
  | cons a m ih =>
      have ha : a ≠ 0 := h a (List.mem_cons_self a m)
      have ih' := ih (fun b hb => h b (List.mem_cons_of_mem a hb))
      simp only [List.cons_append, zeroIdx, if_neg ha, List.length_cons, List.append_eq]
      omega

theorem takeWhileNZ_append (m rest : List ℕ) (h : ∀ b ∈ m, b ≠ 0) :
    (m ++ 0 :: rest).takeWhile (fun b => b ≠ 0) = m := by
  induction m with
  | nil => simp [List.takeWhile]
  | cons a m ih =>
      have ha : a ≠ 0 := h a (List.mem_cons_self a m)
      have ih' := ih (fun b hb => h b (List.mem_cons_of_mem a hb))
      have ih2 : List.takeWhile (fun b => !decide (b = 0)) (m ++ 0 :: rest) = m := by
        simpa using ih'
      simp [ha, ih2]

theorem findZero_append (pre suf : List ℕ) :
    findZero (pre ++ suf) pre.length = pre.length + zeroIdx suf := by
  simp [findZero, List.drop_left]

theorem scanToZero_append (pre suf : List ℕ) :
    scanToZero (pre ++ suf) pre.length = suf.takeWhile (fun b => b ≠ 0) := by
  simp [scanToZero, List.drop_left]

theorem findZero_exact (pre m rest : List ℕ) (h : ∀ b ∈ m, b ≠ 0) :
    findZero (pre ++ (m ++ 0 :: rest)) pre.length = pre.length + m.length := by
  rw [findZero_append, zeroIdx_append m rest h]

theorem scanToZero_exact (pre m rest : List ℕ) (h : ∀ b ∈ m, b ≠ 0) :
    scanToZero (pre ++ (m ++ 0 :: rest)) pre.length = m := by
  rw [scanToZero_append, takeWhileNZ_append m rest h]

/-! ## Byte read/write lemmas -/

theorem getD_add_append (pre suf : List ℕ) (i : ℕ) :
    (pre ++ suf).getD (pre.length + i) 0 = suf.getD i 0 := by
  rw [List.getD_append_right pre suf 0 _ (Nat.le_add_right _ _), Nat.add_sub_cancel_left]

theorem uint32bytes_length (w : ℕ) : (uint32bytes w).length = 4 := rfl

theorem readUInt32_append (pre rest : List ℕ) (w : ℕ) (hw : w < 4294967296) :
    readUInt32 (pre ++ (uint32bytes w ++ rest)) pre.length = w := by
  have e : uint32bytes w ++ rest
      = w / 16777216 % 256 :: w / 65536 % 256 :: w / 256 % 256 :: w % 256 :: rest := by
    simp [uint32bytes]
  have h0 := getD_add_append pre (uint32bytes w ++ rest) 0
  have h1 := getD_add_append pre (uint32bytes w ++ rest) 1
  have h2 := getD_add_append pre (uint32bytes w ++ rest) 2
  have h3 := getD_add_append pre (uint32bytes w ++ rest) 3
  rw [Nat.add_zero] at h0
  simp only [readUInt32, h0, h1, h2, h3]
  rw [e]
  have g0 : (w / 16777216 % 256 :: w / 65536 % 256 :: w / 256 % 256 :: w % 256 :: rest).getD 0 0
      = w / 16777216 % 256 := rfl
  have g1 : (w / 16777216 % 256 :: w / 65536 % 256 :: w / 256 % 256 :: w % 256 :: rest).getD 1 0
      = w / 65536 % 256 := rfl
  have g2 : (w / 16777216 % 256 :: w / 65536 % 256 :: w / 256 % 256 :: w % 256 :: rest).getD 2 0
      = w / 256 % 256 := rfl
  have g3 : (w / 16777216 % 256 :: w / 65536 % 256 :: w / 256 % 256 :: w % 256 :: rest).getD 3 0
      = w % 256 := rfl
  rw [g0, g1, g2, g3]
  omega

theorem toSigned_int32 (n : ℤ) (h1 : -2147483648 ≤ n) (h2 : n < 2147483648) :
    toSigned (n % 4294967296).toNat = n := by
  simp only [toSigned]
  split_ifs <;> omega

theorem int32bytes_lt (n : ℤ) : (n % 4294967296).toNat < 4294967296 := by
  omega

/-! ## Subarray lemmas -/

theorem jsSubarray_append (pre mid post : List ℕ) :
    jsSubarray (pre ++ (mid ++ post)) pre.length (pre.length + mid.length) = mid := by
  simp only [jsSubarray]
  rw [List.take_append mid.length, List.take_left, List.drop_left]

end MCP2OSC

namespace MCP2OSC

/-! ## UTF-8 lemmas -/

theorem utf8EncodeChar_ne_nil (c : ℕ) : utf8EncodeChar c ≠ [] := by
  unfold utf8EncodeChar; split_ifs <;> simp

theorem utf8EncodeChar_nonzero (c : ℕ) (hc : c ≠ 0) :
    ∀ b ∈ utf8EncodeChar c, b ≠ 0 := by
  unfold utf8EncodeChar
  split_ifs with h1 h2 <;> intro b hb <;> simp at hb <;> omega

theorem utf8Encode_nil : utf8Encode [] = [] := rfl

theorem utf8Encode_cons (c : ℕ) (s : List ℕ) :
    utf8Encode (c :: s) = utf8EncodeChar c ++ utf8Encode s := by
  simp [utf8Encode]

theorem utf8Encode_nonzero (s : List ℕ) (h : ∀ c ∈ s, c ≠ 0) :
    ∀ b ∈ utf8Encode s, b ≠ 0 := by
  induction s with
  | nil => simp [utf8Encode]
  | cons c s ih =>
      rw [utf8Encode_cons]
      intro b hb
      rcases List.mem_append.mp hb with h1 | h2
      · exact utf8EncodeChar_nonzero c (h c (List.mem_cons_self c s)) b h1
      · exact ih (fun x hx => h x (List.mem_cons_of_mem c hx)) b h2

theorem utf8Encode_ascii (s : List ℕ) (h : ∀ c ∈ s, c < 128) :
    utf8Encode s = s := by
  induction s with
  | nil => rfl
  | cons c s ih =>
      rw [utf8Encode_cons]
      rw [show utf8EncodeChar c = [c] by
        unfold utf8EncodeChar; rw [if_pos (h c (List.mem_cons_self c s))]]
      rw [ih (fun x hx => h x (List.mem_cons_of_mem c hx))]
      rfl

theorem utf8Encode_ne_nil (s : List ℕ) (h : s ≠ []) : utf8Encode s ≠ [] := by
  cases s with
  | nil => exact absurd rfl h
  | cons c s =>
      rw [utf8Encode_cons]
      intro hx
      rcases List.append_eq_nil.mp hx with ⟨h1, _⟩
      exact utf8EncodeChar_ne_nil c h1

theorem utf8DecodeAux_encode (s : List ℕ) :
    ∀ fuel, (∀ c ∈ s, c < 65536) → (utf8Encode s).length ≤ fuel →
      utf8DecodeAux fuel (utf8Encode s) = s := by
  induction s with
  | nil =>
      intro fuel h hf
      cases fuel <;> rfl
  | cons c s ih =>
      intro fuel h hlen
      have hc : c < 65536 := h c (List.mem_cons_self c s)
      have hs' : ∀ x ∈ s, x < 65536 := fun x hx => h x (List.mem_cons_of_mem c hx)
      rw [utf8Encode_cons] at hlen ⊢
      by_cases h1 : c < 128
      · have he : utf8EncodeChar c = [c] := by
          unfold utf8EncodeChar; rw [if_pos h1]
        rw [he] at hlen ⊢
        simp only [List.length_append, List.length_cons, List.length_nil] at hlen
        obtain ⟨f, rfl⟩ : ∃ f, fuel = f + 1 := ⟨fuel - 1, by omega⟩
        rw [List.singleton_append, utf8DecodeAux, if_pos h1]
        rw [ih f hs' (by omega)]
      · by_cases h2 : c < 2048
        · have he : utf8EncodeChar c = [192 + c / 64, 128 + c % 64] := by
            unfold utf8EncodeChar; rw [if_neg h1, if_pos h2]
          rw [he] at hlen ⊢
          simp only [List.length_append, List.length_cons, List.length_nil] at hlen
          obtain ⟨f, rfl⟩ : ∃ f, fuel = f + 1 := ⟨fuel - 1, by omega⟩
          rw [show [192 + c / 64, 128 + c % 64] ++ utf8Encode s
              = (192 + c / 64) :: (128 + c % 64) :: utf8Encode s from rfl]
          rw [utf8DecodeAux]
          rw [if_neg (by omega), if_neg (by omega), if_pos (by omega)]
          simp only [List.headD_cons, List.drop_succ_cons, List.drop_zero]
          rw [ih f hs' (by omega),
            show (192 + c / 64 - 192) * 64 + (128 + c % 64 - 128) = c from by omega]
        · have he : utf8EncodeChar c
              = [224 + c / 4096, 128 + c / 64 % 64, 128 + c % 64] := by
            unfold utf8EncodeChar; rw [if_neg h1, if_neg h2]
          rw [he] at hlen ⊢
          simp only [List.length_append, List.length_cons, List.length_nil] at hlen
          obtain ⟨f, rfl⟩ : ∃ f, fuel = f + 1 := ⟨fuel - 1, by omega⟩
          rw [show [224 + c / 4096, 128 + c / 64 % 64, 128 + c % 64] ++ utf8Encode s
              = (224 + c / 4096) :: (128 + c / 64 % 64) :: (128 + c % 64) ::
                  utf8Encode s from rfl]
          rw [utf8DecodeAux]
          rw [if_neg (by omega), if_neg (by omega), if_neg (by omega), if_pos (by omega)]
          simp only [List.headD_cons, List.drop_succ_cons, List.drop_zero]
          rw [ih f hs' (by omega),
            show (224 + c / 4096 - 224) * 4096 + (128 + c / 64 % 64 - 128) * 64 +
              (128 + c % 64 - 128) = c from by omega]

theorem utf8Decode_utf8Encode (s : List ℕ) (h : ∀ c ∈ s, c < 65536) :
    utf8Decode (utf8Encode s) = s := by
  rw [utf8Decode]
  exact utf8DecodeAux_encode s (utf8Encode s).length h le_rfl

theorem validUnit_lt (c : ℕ) (h : validUnit c = true) : c < 65536 := by
  simp [validUnit] at h
  omega

theorem WFValue_str_elim (s : List ℕ) (h : WFValue (OscValue.str s) = true) :
    (∀ c ∈ s, c ≠ 0) ∧ (∀ c ∈ s, c < 65536) := by
  simp only [WFValue, List.all_eq_true] at h
  constructor <;> intro c hc <;> have hx := h c hc <;>
    simp [validUnit] at hx <;> omega

theorem asciiStr_decodedVal (v : OscValue) (h : asciiStr v = true) :
    decodedVal v = toJSVal v := by
  cases v with
  | str s =>
      simp only [asciiStr, List.all_eq_true] at h
      simp only [decodedVal, toJSVal]
      congr 1
      exact utf8Encode_ascii s (fun c hc => by simpa using h c hc)
  | i32 n => rfl
  | f32 w => rfl
  | boolean b => rfl
  | nil => rfl

theorem map_decodedVal_eq (args : List OscValue)
    (h : ∀ v ∈ args, asciiStr v = true) :
    args.map decodedVal = args.map toJSVal :=
  List.map_congr_left (fun v hv => asciiStr_decodedVal v (h v hv))

/-! ## Value and payload lemmas -/

theorem oscTypeTag_ne_zero (v : OscValue) : oscTypeTag v ≠ 0 := by
  cases v with
  | boolean b => cases b <;> simp [oscTypeTag]
  | _ => simp [oscTypeTag]

theorem oscArgBytes_length_mod (v : OscValue) : (oscArgBytes v).length % 4 = 0 := by
  cases v with
  | str s =>
      simp only [oscArgBytes]
      exact padTo4Bytes_length_mod _
  | i32 n => simp [oscArgBytes, int32bytes, uint32bytes]
  | f32 w => simp [oscArgBytes, uint32bytes]
  | boolean b => rfl
  | nil => rfl

theorem oscArgBytes_length_ge (v : OscValue) (h : isTFN v = false) :
    4 ≤ (oscArgBytes v).length := by
  cases v with
  | i32 n => simp [oscArgBytes, int32bytes, uint32bytes]
  | f32 w => simp [oscArgBytes, uint32bytes]
  | str s =>
      simp only [oscArgBytes, padTo4Bytes_length, List.length_append, List.length_cons,
        List.length_nil]
      unfold roundUpTo4
      omega
  | boolean b => simp [isTFN] at h
  | nil => simp [isTFN] at h

theorem oscArgBytes_tfn (v : OscValue) (h : isTFN v = true) : oscArgBytes v = [] := by
  cases v with
  | boolean b => rfl
  | nil => rfl
  | _ => simp [isTFN] at h

theorem payloadBytes_nil : payloadBytes [] = [] := rfl

theorem payloadBytes_cons (v : OscValue) (l : List OscValue) :
    payloadBytes (v :: l) = oscArgBytes v ++ payloadBytes l := by
  simp [payloadBytes]

theorem payloadBytes_append (l₁ l₂ : List OscValue) :
    payloadBytes (l₁ ++ l₂) = payloadBytes l₁ ++ payloadBytes l₂ := by
  simp [payloadBytes]

theorem payloadBytes_length_mod (l : List OscValue) :
    (payloadBytes l).length % 4 = 0 := by
  induction l with
  | nil => rfl
  | cons v l ih =>
      rw [payloadBytes_cons]
      have := oscArgBytes_length_mod v
      simp only [List.length_append]
      omega

theorem payloadBytes_of_allTFN (l : List OscValue) (h : ∀ v ∈ l, isTFN v = true) :
    payloadBytes l = [] := by
  induction l with
  | nil => rfl
  | cons v l ih =>
      rw [payloadBytes_cons, oscArgBytes_tfn v (h v (List.mem_cons_self v l)),
        ih (fun x hx => h x (List.mem_cons_of_mem v hx))]
      rfl

theorem payloadBytes_ge_of_hasNonTFN (l : List OscValue)
    (h : ∃ v ∈ l, isTFN v = false) : 4 ≤ (payloadBytes l).length := by
  induction l with
  | nil => simp at h
  | cons v l ih =>
      rw [payloadBytes_cons]
      simp only [List.length_append]
      rcases h with ⟨x, hx, hxf⟩
      rcases List.mem_cons.mp hx with rfl | hmem
      · have := oscArgBytes_length_ge x hxf
        omega
      · have := ih ⟨x, hmem, hxf⟩
        omega

/-! ## Trailing `T`/`F`/`N` trimming lemmas -/

theorem trimTFN_nil : trimTFN [] = [] := rfl

theorem trimTFN_cons_false (a : OscValue) (l : List OscValue) (h : isTFN a = false) :
    trimTFN (a :: l) = a :: trimTFN l := by
  cases hl : trimTFN l with
  | nil => simp [trimTFN, hl, h]
  | cons x xs => simp [trimTFN, hl]

theorem trimTFN_cons_true_nil (a : OscValue) (l : List OscValue)
    (h : isTFN a = true) (hl : trimTFN l = []) : trimTFN (a :: l) = [] := by
  simp [trimTFN, hl, h]

theorem trimTFN_cons_true_ne (a : OscValue) (l : List OscValue)
    (h : isTFN a = true) (hl : trimTFN l ≠ []) : trimTFN (a :: l) = a :: trimTFN l := by
  cases hl' : trimTFN l with
  | nil => exact absurd hl' hl
  | cons x xs => simp [trimTFN, hl']

theorem trimTFN_eq_nil_iff (l : List OscValue) :
    trimTFN l = [] ↔ ∀ v ∈ l, isTFN v = true := by
  induction l with
  | nil => simp [trimTFN]
  | cons a l ih =>
      constructor
      · intro h v hv
        by_cases ha : isTFN a = true
        · cases hl : trimTFN l with
          | nil =>
              rcases List.mem_cons.mp hv with rfl | hmem
              · exact ha
              · exact (ih.mp hl) v hmem
          | cons x xs => rw [trimTFN_cons_true_ne a l ha (by simp [hl])] at h; simp at h
        · rw [trimTFN_cons_false a l (by simpa using ha)] at h
          simp at h
      · intro h
        exact trimTFN_cons_true_nil a l (h a (List.mem_cons_self a l))
          (ih.mpr (fun v hv => h v (List.mem_cons_of_mem a hv)))

theorem trimTFN_ne_nil_of_hasNonTFN (l : List OscValue)
    (h : ∃ v ∈ l, isTFN v = false) : trimTFN l ≠ [] := by
  intro hnil
  rcases h with ⟨v, hv, hvf⟩
  have := (trimTFN_eq_nil_iff l).mp hnil v hv
  rw [this] at hvf
  simp at hvf

end MCP2OSC

namespace MCP2OSC

/-! ## Step lemmas for the argument loops -/

theorem parseArgsLoop_break (buf : List ℕ) (t : ℕ) (ts : List ℕ) (off : ℕ)
    (hg : buf.length < off + 4) : parseArgsLoop buf (t :: ts) off = [] := by
  simp [parseArgsLoop, hg]

theorem parseArgsLoop_i (buf : List ℕ) (ts : List ℕ) (off : ℕ)
    (hg : off + 4 ≤ buf.length) :
    parseArgsLoop buf (105 :: ts) off
      = JSVal.int (toSigned (readUInt32 buf off)) :: parseArgsLoop buf ts (off + 4) := by
  simp [parseArgsLoop, Nat.not_lt.mpr hg]

theorem parseArgsLoop_f (buf : List ℕ) (ts : List ℕ) (off : ℕ)
    (hg : off + 4 ≤ buf.length) :
    parseArgsLoop buf (102 :: ts) off
      = JSVal.float (readUInt32 buf off) :: parseArgsLoop buf ts (off + 4) := by
  simp [parseArgsLoop, Nat.not_lt.mpr hg]

theorem parseArgsLoop_s (buf : List ℕ) (ts : List ℕ) (off : ℕ)
    (hg : off + 4 ≤ buf.length) :
    parseArgsLoop buf (115 :: ts) off
      = JSVal.str (scanToZero buf off) ::
          parseArgsLoop buf ts (skipPad buf (findZero buf off + 1)) := by
  simp [parseArgsLoop, Nat.not_lt.mpr hg]

theorem parseArgsLoop_T (buf : List ℕ) (ts : List ℕ) (off : ℕ)
    (hg : off + 4 ≤ buf.length) :
    parseArgsLoop buf (84 :: ts) off = JSVal.bool true :: parseArgsLoop buf ts off := by
  simp [parseArgsLoop, Nat.not_lt.mpr hg]

theorem parseArgsLoop_F (buf : List ℕ) (ts : List ℕ) (off : ℕ)
    (hg : off + 4 ≤ buf.length) :
    parseArgsLoop buf (70 :: ts) off = JSVal.bool false :: parseArgsLoop buf ts off := by
  simp [parseArgsLoop, Nat.not_lt.mpr hg]

theorem parseArgsLoop_N (buf : List ℕ) (ts : List ℕ) (off : ℕ)
    (hg : off + 4 ≤ buf.length) :
    parseArgsLoop buf (78 :: ts) off = JSVal.null :: parseArgsLoop buf ts off := by
  simp [parseArgsLoop, Nat.not_lt.mpr hg]

/-! ## Decoding an encoded argument section: `parseArgsLoop` -/

/-- Central lemma for the `parseOSCArgs` argument loop: run on a buffer
holding exactly the payloads of `args` (starting at the 4-aligned
offset `pre.length`) while the type-tag list covers `args ++ rest`
(as happens when a message is truncated at an argument boundary:
the tag string is intact but later payloads are missing), the loop
decodes `args` with its maximal trailing `T`/`F`/`N` run removed — the
`offset + 4 > buffer.length` break fires on zero-payload tags at the
end of the buffer, and on the first tag of `rest`. -/
theorem parseArgsLoop_spec (args : List OscValue) (rest : List OscValue)
    (pre : List ℕ) (hpre : pre.length % 4 = 0)
    (hwf : ∀ v ∈ args, WFValue v = true) :
    parseArgsLoop (pre ++ payloadBytes args) ((args ++ rest).map oscTypeTag) pre.length
      = (trimTFN args).map decodedVal := by
  induction args generalizing pre with
  | nil =>
      rw [payloadBytes_nil, List.append_nil, List.nil_append, trimTFN_nil, List.map_nil]
      cases rest with
      | nil => rfl
      | cons r rs =>
          rw [List.map_cons]
          exact parseArgsLoop_break pre (oscTypeTag r) _ pre.length (by omega)
  | cons a args ih =>
      have hwa : WFValue a = true := hwf a (List.mem_cons_self a args)
      have hwf' : ∀ v ∈ args, WFValue v = true :=
        fun v hv => hwf v (List.mem_cons_of_mem a hv)
      rw [List.cons_append, List.map_cons, payloadBytes_cons, ← List.append_assoc]
      have hlen : (pre ++ oscArgBytes a).length = pre.length + (oscArgBytes a).length := by
        simp
      cases a with
      | i32 n =>
          have hb : (-2147483648 ≤ n ∧ n < 2147483648) := by
            simpa [WFValue] using hwa
          have hg : pre.length + 4 ≤ ((pre ++ oscArgBytes (OscValue.i32 n)) ++ payloadBytes args).length := by
            simp [oscArgBytes, int32bytes, uint32bytes]
          rw [List.append_assoc]
          rw [show oscTypeTag (OscValue.i32 n) = 105 from rfl]
          rw [parseArgsLoop_i _ _ _ (by simpa [List.append_assoc] using hg)]
          have hread : readUInt32 (pre ++ (oscArgBytes (OscValue.i32 n) ++ payloadBytes args)) pre.length
              = (n % 4294967296).toNat := by
            rw [show oscArgBytes (OscValue.i32 n) = uint32bytes (n % 4294967296).toNat from rfl]
            exact readUInt32_append pre (payloadBytes args) _ (int32bytes_lt n)
          rw [hread, toSigned_int32 n hb.1 hb.2]
          have hstep : pre.length + 4 = (pre ++ oscArgBytes (OscValue.i32 n)).length := by
            simp [oscArgBytes, int32bytes, uint32bytes]
          rw [hstep, ← List.append_assoc]
          rw [ih (pre ++ oscArgBytes (OscValue.i32 n)) (by simp [oscArgBytes, int32bytes, uint32bytes]; omega) hwf']
          rw [trimTFN_cons_false (OscValue.i32 n) args rfl, List.map_cons]
          rfl
      | f32 w =>
          have hb : w < 4294967296 := by simpa [WFValue] using hwa
          rw [List.append_assoc]
          rw [show oscTypeTag (OscValue.f32 w) = 102 from rfl]
          rw [parseArgsLoop_f _ _ _ (by simp [oscArgBytes, uint32bytes])]
          have hread : readUInt32 (pre ++ (oscArgBytes (OscValue.f32 w) ++ payloadBytes args)) pre.length = w := by
            rw [show oscArgBytes (OscValue.f32 w) = uint32bytes w from rfl]
            exact readUInt32_append pre (payloadBytes args) w hb
          rw [hread]
          have hstep : pre.length + 4 = (pre ++ oscArgBytes (OscValue.f32 w)).length := by
            simp [oscArgBytes, uint32bytes]
          rw [hstep, ← List.append_assoc]
          rw [ih (pre ++ oscArgBytes (OscValue.f32 w)) (by simp [oscArgBytes, uint32bytes]; omega) hwf']
          rw [trimTFN_cons_false (OscValue.f32 w) args rfl, List.map_cons]
          rfl
      | str s =>
          have hs0 := WFValue_str_elim s hwa
          have hs : ∀ b ∈ utf8Encode s, b ≠ 0 := utf8Encode_nonzero s hs0.1
          have hshape : oscArgBytes (OscValue.str s)
              = utf8Encode s ++ 0 :: List.replicate ((4 - ((utf8Encode s).length + 1) % 4) % 4) 0 := by
            simp [oscArgBytes, padTo4Bytes, List.append_assoc]
          have hpay4 : 4 ≤ (oscArgBytes (OscValue.str s)).length :=
            oscArgBytes_length_ge _ rfl
          rw [List.append_assoc]
          rw [show oscTypeTag (OscValue.str s) = 115 from rfl]
          rw [parseArgsLoop_s _ _ _ (by simp only [List.length_append]; omega)]
          have hexp : oscArgBytes (OscValue.str s) ++ payloadBytes args
              = utf8Encode s ++ 0 :: (List.replicate ((4 - ((utf8Encode s).length + 1) % 4) % 4) 0 ++ payloadBytes args) := by
            rw [hshape]; simp [List.append_assoc]
          rw [hexp]
          rw [scanToZero_exact pre (utf8Encode s) _ hs, findZero_exact pre (utf8Encode s) _ hs]
          have hpadlen : roundUpTo4 (pre.length + (utf8Encode s).length + 1)
              = (pre ++ oscArgBytes (OscValue.str s)).length := by
            rw [hlen, show (oscArgBytes (OscValue.str s)).length = roundUpTo4 ((utf8Encode s).length + 1) by
              simp [oscArgBytes, padTo4Bytes_length]]
            rw [show pre.length + (utf8Encode s).length + 1 = pre.length + ((utf8Encode s).length + 1) by omega]
            exact roundUpTo4_add pre.length ((utf8Encode s).length + 1) hpre
          have hle : roundUpTo4 (pre.length + (utf8Encode s).length + 1)
              ≤ (pre ++ (utf8Encode s ++ 0 :: (List.replicate ((4 - ((utf8Encode s).length + 1) % 4) % 4) 0 ++ payloadBytes args))).length := by
            rw [hpadlen, hlen, hshape]
            simp only [List.length_append, List.length_cons, List.length_replicate]
            omega
          have hsk : skipPad (pre ++ (utf8Encode s ++ 0 :: (List.replicate ((4 - ((utf8Encode s).length + 1) % 4) % 4) 0 ++ payloadBytes args))) (pre.length + (utf8Encode s).length + 1)
              = (pre ++ oscArgBytes (OscValue.str s)).length := by
            rw [skipPad_eq _ _ hle]
            exact hpadlen
          rw [hsk]
          have hbuf : pre ++ (utf8Encode s ++ 0 :: (List.replicate ((4 - ((utf8Encode s).length + 1) % 4) % 4) 0 ++ payloadBytes args))
              = (pre ++ oscArgBytes (OscValue.str s)) ++ payloadBytes args := by
            rw [hshape]; simp [List.append_assoc]
          rw [hbuf]
          rw [ih (pre ++ oscArgBytes (OscValue.str s)) (by
            rw [hlen]
            have := oscArgBytes_length_mod (OscValue.str s)
            omega) hwf']
          rw [trimTFN_cons_false (OscValue.str s) args rfl, List.map_cons]
          rfl
      | boolean b =>
          have hzero : oscArgBytes (OscValue.boolean b) = [] := rfl
          rw [hzero, List.append_nil]
          by_cases hall : ∀ v ∈ args, isTFN v = true
          · have hpay : payloadBytes args = [] := payloadBytes_of_allTFN args hall
            have htr : trimTFN args = [] := (trimTFN_eq_nil_iff args).mpr hall
            rw [hpay, List.append_nil, trimTFN_cons_true_nil (OscValue.boolean b) args rfl htr,
              List.map_nil]
            cases b <;>
              exact parseArgsLoop_break pre _ _ pre.length (by omega)
          · have hex : ∃ v ∈ args, isTFN v = false := by
              push_neg at hall
              rcases hall with ⟨v, hv, hvf⟩
              exact ⟨v, hv, by simpa using hvf⟩
            have hge := payloadBytes_ge_of_hasNonTFN args hex
            have hg : pre.length + 4 ≤ (pre ++ payloadBytes args).length := by
              simp only [List.length_append]; omega
            have htr := trimTFN_cons_true_ne (OscValue.boolean b) args rfl
              (trimTFN_ne_nil_of_hasNonTFN args hex)
            rw [htr, List.map_cons]
            cases b with
            | true =>
                rw [show oscTypeTag (OscValue.boolean true) = 84 from rfl,
                  parseArgsLoop_T _ _ _ hg, ih pre hpre hwf']
                rfl
            | false =>
                rw [show oscTypeTag (OscValue.boolean false) = 70 from rfl,
                  parseArgsLoop_F _ _ _ hg, ih pre hpre hwf']
                rfl
      | nil =>
          have hzero : oscArgBytes OscValue.nil = [] := rfl
          rw [hzero, List.append_nil]
          by_cases hall : ∀ v ∈ args, isTFN v = true
          · have hpay : payloadBytes args = [] := payloadBytes_of_allTFN args hall
            have htr : trimTFN args = [] := (trimTFN_eq_nil_iff args).mpr hall
            rw [hpay, List.append_nil, trimTFN_cons_true_nil OscValue.nil args rfl htr,
              List.map_nil]
            exact parseArgsLoop_break pre _ _ pre.length (by omega)
          · have hex : ∃ v ∈ args, isTFN v = false := by
              push_neg at hall
              rcases hall with ⟨v, hv, hvf⟩
              exact ⟨v, hv, by simpa using hvf⟩
            have hge := payloadBytes_ge_of_hasNonTFN args hex
            have hg : pre.length + 4 ≤ (pre ++ payloadBytes args).length := by
              simp only [List.length_append]; omega
            have htr := trimTFN_cons_true_ne OscValue.nil args rfl
              (trimTFN_ne_nil_of_hasNonTFN args hex)
            rw [htr, List.map_cons]
            rw [show oscTypeTag OscValue.nil = 78 from rfl,
              parseArgsLoop_N _ _ _ hg, ih pre hpre hwf']
            rfl

end MCP2OSC

namespace MCP2OSC

/-! ## Decoding the front matter of an encoded message -/

theorem createOSCMessage_eq_header_payload (addr : List ℕ) (args : List OscValue) :
    createOSCMessage addr args = msgHeader addr args ++ payloadBytes args := by
  simp [createOSCMessage, msgHeader, List.append_assoc]

theorem msgHeader_length_mod (addr : List ℕ) (args : List OscValue) :
    (msgHeader addr args).length % 4 = 0 := by
  have h1 := padTo4Bytes_length_mod (utf8Encode addr ++ [0])
  have h2 := padTo4Bytes_length_mod (44 :: args.map oscTypeTag ++ [0])
  simp only [msgHeader, List.length_append]
  omega

theorem tags_ne_zero (args : List OscValue) :
    ∀ b ∈ args.map oscTypeTag, b ≠ 0 := by
  intro b hb
  rcases List.mem_map.mp hb with ⟨v, _, rfl⟩
  exact oscTypeTag_ne_zero v

/-- Shape of the address section: `addr`, NUL, padding. -/
theorem padAddr_shape (addr : List ℕ) :
    padTo4Bytes (addr ++ [0])
      = addr ++ 0 :: List.replicate ((4 - (addr.length + 1) % 4) % 4) 0 := by
  simp [padTo4Bytes, List.append_assoc]

/-- Shape of the tag section: `','`, the tags, NUL, padding. -/
theorem padTags_shape (tags : List ℕ) :
    padTo4Bytes (44 :: tags ++ [0])
      = 44 :: (tags ++ 0 :: List.replicate ((4 - (tags.length + 2) % 4) % 4) 0) := by
  simp [padTo4Bytes, List.append_assoc]

/-- Walking the front matter of an encoded message with the
`parseOSCArgs` scanner: skipping the address and its padding lands at
the start of the tag section; the byte there is `','`; scanning the
tag bytes returns the tag list; skipping the tag terminator and padding
lands at the start of the payload; the argument loop then decodes the
(possibly truncated) payload. -/
theorem parseOSCArgs_encode_take (addr : List ℕ) (args : List OscValue) (k : ℕ)
    (haddr : ∀ b ∈ addr, b ≠ 0)
    (hwf : ∀ v ∈ args, WFValue v = true) :
    parseOSCArgs (msgHeader addr args ++ payloadBytes (args.take k))
      = (trimTFN (args.take k)).map decodedVal := by
  have haddru : ∀ b ∈ utf8Encode addr, b ≠ 0 := utf8Encode_nonzero addr haddr
  obtain ⟨A, hA⟩ : ∃ A, A = padTo4Bytes (utf8Encode addr ++ [0]) := ⟨_, rfl⟩
  obtain ⟨tags, htags⟩ : ∃ tags, tags = args.map oscTypeTag := ⟨_, rfl⟩
  obtain ⟨T, hT⟩ : ∃ T, T = padTo4Bytes (44 :: tags ++ [0]) := ⟨_, rfl⟩
  obtain ⟨P, hP⟩ : ∃ P, P = payloadBytes (args.take k) := ⟨_, rfl⟩
  rw [← hP]
  have hbufshape : msgHeader addr args ++ P = A ++ (T ++ P) := by
    rw [msgHeader, ← htags, ← hA, ← hT, List.append_assoc]
  have hAlen : A.length = roundUpTo4 ((utf8Encode addr).length + 1) := by
    rw [hA, padTo4Bytes_length]
    simp
  have hTlen : T.length = roundUpTo4 (tags.length + 2) := by
    rw [hT, padTo4Bytes_length]
    simp only [List.length_cons, List.length_append, List.length_nil]
  have hTge : tags.length + 2 ≤ T.length := by
    rw [hTlen]; exact roundUpTo4_ge _
  have hA4 : A.length % 4 = 0 := by rw [hA]; exact padTo4Bytes_length_mod _
  have hT4 : T.length % 4 = 0 := by rw [hT]; exact padTo4Bytes_length_mod _
  have haddrshape : A ++ (T ++ P)
      = utf8Encode addr ++ 0 :: (List.replicate ((4 - ((utf8Encode addr).length + 1) % 4) % 4) 0 ++ (T ++ P)) := by
    rw [hA, padAddr_shape]; simp [List.append_assoc]
  have hfz : findZero (msgHeader addr args ++ P) 0 = (utf8Encode addr).length := by
    rw [hbufshape, haddrshape]
    have h := findZero_exact [] (utf8Encode addr)
      (List.replicate ((4 - ((utf8Encode addr).length + 1) % 4) % 4) 0 ++ (T ++ P)) haddru
    simpa using h
  have hlenbuf : (msgHeader addr args ++ P).length = A.length + T.length + P.length := by
    rw [hbufshape]; simp [List.append_assoc]; omega
  have hle1 : roundUpTo4 ((utf8Encode addr).length + 1) ≤ (msgHeader addr args ++ P).length := by
    rw [hlenbuf, ← hAlen]; omega
  have ho1 : skipPad (msgHeader addr args ++ P) ((utf8Encode addr).length + 1) = A.length := by
    rw [skipPad_eq _ _ hle1, ← hAlen]
  have hcomma : (msgHeader addr args ++ P).getD A.length 0 = 44 := by
    rw [hbufshape]
    have h := getD_add_append A (T ++ P) 0
    rw [Nat.add_zero] at h
    rw [h, hT, padTags_shape, List.cons_append]
    rfl
  have htagshape : A ++ (T ++ P)
      = (A ++ [44]) ++ (tags ++ 0 ::
          (List.replicate ((4 - (tags.length + 2) % 4) % 4) 0 ++ P)) := by
    rw [hT, padTags_shape]
    simp [List.append_assoc]
  have h44len : (A ++ [44]).length = A.length + 1 := by simp
  have htagnz : ∀ b ∈ tags, b ≠ 0 := by
    rw [htags]; exact tags_ne_zero args
  have hscan : scanToZero (msgHeader addr args ++ P) (A.length + 1) = tags := by
    rw [hbufshape, htagshape, ← h44len]
    exact scanToZero_exact (A ++ [44]) tags _ htagnz
  have hfz2 : findZero (msgHeader addr args ++ P) (A.length + 1)
      = A.length + 1 + tags.length := by
    rw [hbufshape, htagshape, ← h44len]
    rw [findZero_exact (A ++ [44]) tags _ htagnz, h44len]
  have hle2 : roundUpTo4 (A.length + (tags.length + 2)) ≤ (msgHeader addr args ++ P).length := by
    rw [roundUpTo4_add _ _ hA4, ← hTlen, hlenbuf]; omega
  have ho2 : skipPad (msgHeader addr args ++ P) (A.length + 1 + tags.length + 1)
      = A.length + T.length := by
    have harr : A.length + 1 + tags.length + 1 = A.length + (tags.length + 2) := by omega
    rw [harr, skipPad_eq _ _ hle2, roundUpTo4_add _ _ hA4, ← hTlen]
  rw [parseOSCArgs]
  simp only [hfz, ho1, hcomma, hscan, hfz2, ho2]
  rw [if_neg (by rw [hlenbuf]; omega), if_pos trivial]
  have hAT : msgHeader addr args ++ P = (A ++ T) ++ P := by
    rw [hbufshape, List.append_assoc]
  have hATlen : A.length + T.length = (A ++ T).length := by simp
  rw [hAT, hATlen, hP]
  have hsplit : tags = ((args.take k) ++ (args.drop k)).map oscTypeTag := by
    rw [htags, List.take_append_drop]
  rw [hsplit]
  exact parseArgsLoop_spec (args.take k) (args.drop k) (A ++ T)
    (by rw [← hATlen]; omega)
    (fun v hv => hwf v (List.mem_of_mem_take hv))

/-- `parseOSCAddress` on an encoded message recovers the address when
it is non-empty and NUL-free. -/
theorem parseOSCAddress_encode (addr : List ℕ) (args : List OscValue)
    (hne : addr ≠ []) (haddr : ∀ b ∈ addr, b ≠ 0) (hu : ∀ c ∈ addr, c < 65536) :
    parseOSCAddress (createOSCMessage addr args) = addr := by
  have haddru : ∀ b ∈ utf8Encode addr, b ≠ 0 := utf8Encode_nonzero addr haddr
  obtain ⟨R, hR⟩ : ∃ R, R = List.replicate ((4 - ((utf8Encode addr).length + 1) % 4) % 4) 0 ++
      (padTo4Bytes (44 :: args.map oscTypeTag ++ [0]) ++ payloadBytes args) := ⟨_, rfl⟩
  have hshape : createOSCMessage addr args = utf8Encode addr ++ 0 :: R := by
    rw [createOSCMessage, padAddr_shape, hR]
    simp [List.append_assoc]
  have hfz : findZero (createOSCMessage addr args) 0 = (utf8Encode addr).length := by
    rw [hshape]
    have h := findZero_exact [] (utf8Encode addr) R haddru
    simpa using h
  have hlt : (utf8Encode addr).length < (createOSCMessage addr args).length := by
    rw [hshape]
    simp
  have hpos : 0 < (utf8Encode addr).length :=
    List.length_pos.mpr (utf8Encode_ne_nil addr hne)
  rw [parseOSCAddress, jsIndexOfZero]
  simp only [hfz, if_pos hlt]
  rw [if_pos hpos, hshape]
  rw [show utf8Encode addr ++ 0 :: R = utf8Encode addr ++ (0 :: R) from rfl]
  rw [List.take_left (utf8Encode addr) _]
  exact utf8Decode_utf8Encode addr hu

end MCP2OSC

namespace MCP2OSC

/-! ## Step lemmas for `part005Loop` and `stopLoop` -/

theorem part005Loop_i (buf : List ℕ) (ts : List ℕ) (off : ℕ)
    (hg : off + 4 ≤ buf.length) :
    part005Loop buf (105 :: ts) off
      = JSVal.int (toSigned (readUInt32 buf off)) :: part005Loop buf ts (off + 4) := by
  simp [part005Loop, hg]

theorem part005Loop_f (buf : List ℕ) (ts : List ℕ) (off : ℕ)
    (hg : off + 4 ≤ buf.length) :
    part005Loop buf (102 :: ts) off
      = JSVal.float (readUInt32 buf off) :: part005Loop buf ts (off + 4) := by
  simp [part005Loop, hg]

theorem part005Loop_s (buf : List ℕ) (ts : List ℕ) (off : ℕ) :
    part005Loop buf (115 :: ts) off
      = JSVal.str (scanToZero buf off) ::
          part005Loop buf ts (skipPad buf (findZero buf off + 1)) := by
  simp [part005Loop]

theorem stopLoop_i (buf : List ℕ) (ts : List ℕ) (off : ℕ)
    (hg : off + 4 ≤ buf.length) :
    stopLoop buf (105 :: ts) off
      = (stopLoop buf ts (off + 4)).map
          (fun args => JSVal.int (toSigned (readUInt32 buf off)) :: args) := by
  simp [stopLoop, hg]

theorem stopLoop_f (buf : List ℕ) (ts : List ℕ) (off : ℕ)
    (hg : off + 4 ≤ buf.length) :
    stopLoop buf (102 :: ts) off
      = (stopLoop buf ts (off + 4)).map
          (fun args => JSVal.float (readUInt32 buf off) :: args) := by
  simp [stopLoop, hg]

theorem stopLoop_s_found (buf : List ℕ) (ts : List ℕ) (off k : ℕ)
    (hk : jsIndexOfZero buf off = some k) :
    stopLoop buf (115 :: ts) off
      = (stopLoop buf ts (roundUpTo4 (k + 1))).map
          (fun args => JSVal.str (utf8Decode (jsSubarray buf off k)) :: args) := by
  simp [stopLoop, hk]

/-! ## Decoding an encoded argument section with the other two loops -/

/-- `part005Loop` on an untruncated payload of `i`/`f`/`s` arguments
decodes them all. -/
theorem part005Loop_spec (args : List OscValue) (pre : List ℕ)
    (hpre : pre.length % 4 = 0) (hwf : ∀ v ∈ args, WFValue v = true)
    (hnt : ∀ v ∈ args, isTFN v = false) :
    part005Loop (pre ++ payloadBytes args) (args.map oscTypeTag) pre.length
      = args.map decodedVal := by
  induction args generalizing pre with
  | nil => rw [payloadBytes_nil, List.append_nil]; rfl
  | cons a args ih =>
      have hwa : WFValue a = true := hwf a (List.mem_cons_self a args)
      have hwf' : ∀ v ∈ args, WFValue v = true :=
        fun v hv => hwf v (List.mem_cons_of_mem a hv)
      have hnt' : ∀ v ∈ args, isTFN v = false :=
        fun v hv => hnt v (List.mem_cons_of_mem a hv)
      rw [List.map_cons, payloadBytes_cons, ← List.append_assoc]
      have hlen : (pre ++ oscArgBytes a).length = pre.length + (oscArgBytes a).length := by
        simp
      cases a with
      | i32 n =>
          have hb : (-2147483648 ≤ n ∧ n < 2147483648) := by
            simpa [WFValue] using hwa
          rw [List.append_assoc]
          rw [show oscTypeTag (OscValue.i32 n) = 105 from rfl]
          rw [part005Loop_i _ _ _ (by simp [oscArgBytes, int32bytes, uint32bytes])]
          have hread : readUInt32 (pre ++ (oscArgBytes (OscValue.i32 n) ++ payloadBytes args)) pre.length
              = (n % 4294967296).toNat := by
            rw [show oscArgBytes (OscValue.i32 n) = uint32bytes (n % 4294967296).toNat from rfl]
            exact readUInt32_append pre (payloadBytes args) _ (int32bytes_lt n)
          rw [hread, toSigned_int32 n hb.1 hb.2]
          have hstep : pre.length + 4 = (pre ++ oscArgBytes (OscValue.i32 n)).length := by
            simp [oscArgBytes, int32bytes, uint32bytes]
          rw [hstep, ← List.append_assoc]
          rw [ih (pre ++ oscArgBytes (OscValue.i32 n))
            (by simp [oscArgBytes, int32bytes, uint32bytes]; omega) hwf' hnt']
          rfl
      | f32 w =>
          have hb : w < 4294967296 := by simpa [WFValue] using hwa
          rw [List.append_assoc]
          rw [show oscTypeTag (OscValue.f32 w) = 102 from rfl]
          rw [part005Loop_f _ _ _ (by simp [oscArgBytes, uint32bytes])]
          have hread : readUInt32 (pre ++ (oscArgBytes (OscValue.f32 w) ++ payloadBytes args)) pre.length = w := by
            rw [show oscArgBytes (OscValue.f32 w) = uint32bytes w from rfl]
            exact readUInt32_append pre (payloadBytes args) w hb
          rw [hread]
          have hstep : pre.length + 4 = (pre ++ oscArgBytes (OscValue.f32 w)).length := by
            simp [oscArgBytes, uint32bytes]
          rw [hstep, ← List.append_assoc]
          rw [ih (pre ++ oscArgBytes (OscValue.f32 w))
            (by simp [oscArgBytes, uint32bytes]; omega) hwf' hnt']
          rfl
      | str s =>
          have hs0 := WFValue_str_elim s hwa
          have hs : ∀ b ∈ utf8Encode s, b ≠ 0 := utf8Encode_nonzero s hs0.1
          have hshape : oscArgBytes (OscValue.str s)
              = utf8Encode s ++ 0 :: List.replicate ((4 - ((utf8Encode s).length + 1) % 4) % 4) 0 := by
            simp [oscArgBytes, padTo4Bytes, List.append_assoc]
          rw [List.append_assoc]
          rw [show oscTypeTag (OscValue.str s) = 115 from rfl]
          rw [part005Loop_s]
          have hexp : oscArgBytes (OscValue.str s) ++ payloadBytes args
              = utf8Encode s ++ 0 :: (List.replicate ((4 - ((utf8Encode s).length + 1) % 4) % 4) 0 ++ payloadBytes args) := by
            rw [hshape]; simp [List.append_assoc]
          rw [hexp]
          rw [scanToZero_exact pre (utf8Encode s) _ hs, findZero_exact pre (utf8Encode s) _ hs]
          have hpadlen : roundUpTo4 (pre.length + (utf8Encode s).length + 1)
              = (pre ++ oscArgBytes (OscValue.str s)).length := by
            rw [hlen, show (oscArgBytes (OscValue.str s)).length = roundUpTo4 ((utf8Encode s).length + 1) by
              simp [oscArgBytes, padTo4Bytes_length]]
            rw [show pre.length + (utf8Encode s).length + 1 = pre.length + ((utf8Encode s).length + 1) by omega]
            exact roundUpTo4_add pre.length ((utf8Encode s).length + 1) hpre
          have hle : roundUpTo4 (pre.length + (utf8Encode s).length + 1)
              ≤ (pre ++ (utf8Encode s ++ 0 :: (List.replicate ((4 - ((utf8Encode s).length + 1) % 4) % 4) 0 ++ payloadBytes args))).length := by
            rw [hpadlen, hlen, hshape]
            simp only [List.length_append, List.length_cons, List.length_replicate]
            omega
          have hsk : skipPad (pre ++ (utf8Encode s ++ 0 :: (List.replicate ((4 - ((utf8Encode s).length + 1) % 4) % 4) 0 ++ payloadBytes args))) (pre.length + (utf8Encode s).length + 1)
              = (pre ++ oscArgBytes (OscValue.str s)).length := by
            rw [skipPad_eq _ _ hle]
            exact hpadlen
          rw [hsk]
          have hbuf : pre ++ (utf8Encode s ++ 0 :: (List.replicate ((4 - ((utf8Encode s).length + 1) % 4) % 4) 0 ++ payloadBytes args))
              = (pre ++ oscArgBytes (OscValue.str s)) ++ payloadBytes args := by
            rw [hshape]; simp [List.append_assoc]
          rw [hbuf]
          rw [ih (pre ++ oscArgBytes (OscValue.str s)) (by
            rw [hlen]
            have h := oscArgBytes_length_mod (OscValue.str s)
            omega) hwf' hnt']
          rfl
      | boolean b =>
          have h := hnt (OscValue.boolean b) (List.mem_cons_self _ _)
          simp [isTFN] at h
      | nil =>
          have h := hnt OscValue.nil (List.mem_cons_self _ _)
          simp [isTFN] at h

end MCP2OSC

namespace MCP2OSC

/-- `stopLoop` on an untruncated payload of `i`/`f`/`s` arguments
decodes them all without throwing. -/
theorem stopLoop_spec (args : List OscValue) (pre : List ℕ)
    (hpre : pre.length % 4 = 0) (hwf : ∀ v ∈ args, WFValue v = true)
    (hnt : ∀ v ∈ args, isTFN v = false) :
    stopLoop (pre ++ payloadBytes args) (args.map oscTypeTag) pre.length
      = Except.ok (args.map toJSVal) := by
  induction args generalizing pre with
  | nil => rw [payloadBytes_nil, List.append_nil]; rfl
  | cons a args ih =>
      have hwa : WFValue a = true := hwf a (List.mem_cons_self a args)
      have hwf' : ∀ v ∈ args, WFValue v = true :=
        fun v hv => hwf v (List.mem_cons_of_mem a hv)
      have hnt' : ∀ v ∈ args, isTFN v = false :=
        fun v hv => hnt v (List.mem_cons_of_mem a hv)
      rw [List.map_cons, payloadBytes_cons, ← List.append_assoc]
      have hlen : (pre ++ oscArgBytes a).length = pre.length + (oscArgBytes a).length := by
        simp
      cases a with
      | i32 n =>
          have hb : (-2147483648 ≤ n ∧ n < 2147483648) := by
            simpa [WFValue] using hwa
          rw [List.append_assoc]
          rw [show oscTypeTag (OscValue.i32 n) = 105 from rfl]
          rw [stopLoop_i _ _ _ (by simp [oscArgBytes, int32bytes, uint32bytes])]
          have hread : readUInt32 (pre ++ (oscArgBytes (OscValue.i32 n) ++ payloadBytes args)) pre.length
              = (n % 4294967296).toNat := by
            rw [show oscArgBytes (OscValue.i32 n) = uint32bytes (n % 4294967296).toNat from rfl]
            exact readUInt32_append pre (payloadBytes args) _ (int32bytes_lt n)
          rw [hread, toSigned_int32 n hb.1 hb.2]
          have hstep : pre.length + 4 = (pre ++ oscArgBytes (OscValue.i32 n)).length := by
            simp [oscArgBytes, int32bytes, uint32bytes]
          rw [hstep, ← List.append_assoc]
          rw [ih (pre ++ oscArgBytes (OscValue.i32 n))
            (by simp [oscArgBytes, int32bytes, uint32bytes]; omega) hwf' hnt']
          rfl
      | f32 w =>
          have hb : w < 4294967296 := by simpa [WFValue] using hwa
          rw [List.append_assoc]
          rw [show oscTypeTag (OscValue.f32 w) = 102 from rfl]
          rw [stopLoop_f _ _ _ (by simp [oscArgBytes, uint32bytes])]
          have hread : readUInt32 (pre ++ (oscArgBytes (OscValue.f32 w) ++ payloadBytes args)) pre.length = w := by
            rw [show oscArgBytes (OscValue.f32 w) = uint32bytes w from rfl]
            exact readUInt32_append pre (payloadBytes args) w hb
          rw [hread]
          have hstep : pre.length + 4 = (pre ++ oscArgBytes (OscValue.f32 w)).length := by
            simp [oscArgBytes, uint32bytes]
          rw [hstep, ← List.append_assoc]
          rw [ih (pre ++ oscArgBytes (OscValue.f32 w))
            (by simp [oscArgBytes, uint32bytes]; omega) hwf' hnt']
          rfl
      | str s =>
          have hs0 := WFValue_str_elim s hwa
          have hs : ∀ b ∈ utf8Encode s, b ≠ 0 := utf8Encode_nonzero s hs0.1
          have hshape : oscArgBytes (OscValue.str s)
              = utf8Encode s ++ 0 :: List.replicate ((4 - ((utf8Encode s).length + 1) % 4) % 4) 0 := by
            simp [oscArgBytes, padTo4Bytes, List.append_assoc]
          rw [List.append_assoc]
          rw [show oscTypeTag (OscValue.str s) = 115 from rfl]
          have hexp : oscArgBytes (OscValue.str s) ++ payloadBytes args
              = utf8Encode s ++ 0 :: (List.replicate ((4 - ((utf8Encode s).length + 1) % 4) % 4) 0 ++ payloadBytes args) := by
            rw [hshape]; simp [List.append_assoc]
          rw [hexp]
          have hfz : findZero (pre ++ (utf8Encode s ++ 0 :: (List.replicate ((4 - ((utf8Encode s).length + 1) % 4) % 4) 0 ++ payloadBytes args))) pre.length
              = pre.length + (utf8Encode s).length := findZero_exact pre (utf8Encode s) _ hs
          have hidx : jsIndexOfZero (pre ++ (utf8Encode s ++ 0 :: (List.replicate ((4 - ((utf8Encode s).length + 1) % 4) % 4) 0 ++ payloadBytes args))) pre.length
              = some (pre.length + (utf8Encode s).length) := by
            rw [jsIndexOfZero, hfz]
            rw [if_pos]
            simp only [List.length_append, List.length_cons, List.length_replicate]
            omega
          rw [stopLoop_s_found _ _ _ _ hidx]
          have hsub : jsSubarray (pre ++ (utf8Encode s ++ 0 :: (List.replicate ((4 - ((utf8Encode s).length + 1) % 4) % 4) 0 ++ payloadBytes args))) pre.length (pre.length + (utf8Encode s).length)
              = utf8Encode s := by
            have h := jsSubarray_append pre (utf8Encode s)
              (0 :: (List.replicate ((4 - ((utf8Encode s).length + 1) % 4) % 4) 0 ++ payloadBytes args))
            simpa using h
          rw [hsub, utf8Decode_utf8Encode s hs0.2]
          have hpadlen : roundUpTo4 (pre.length + (utf8Encode s).length + 1)
              = (pre ++ oscArgBytes (OscValue.str s)).length := by
            rw [hlen, show (oscArgBytes (OscValue.str s)).length = roundUpTo4 ((utf8Encode s).length + 1) by
              simp [oscArgBytes, padTo4Bytes_length]]
            rw [show pre.length + (utf8Encode s).length + 1 = pre.length + ((utf8Encode s).length + 1) by omega]
            exact roundUpTo4_add pre.length ((utf8Encode s).length + 1) hpre
          rw [hpadlen]
          have hbuf : pre ++ (utf8Encode s ++ 0 :: (List.replicate ((4 - ((utf8Encode s).length + 1) % 4) % 4) 0 ++ payloadBytes args))
              = (pre ++ oscArgBytes (OscValue.str s)) ++ payloadBytes args := by
            rw [hshape]; simp [List.append_assoc]
          rw [hbuf]
          rw [ih (pre ++ oscArgBytes (OscValue.str s)) (by
            rw [hlen]
            have h := oscArgBytes_length_mod (OscValue.str s)
            omega) hwf' hnt']
          rfl
      | boolean b =>
          have h := hnt (OscValue.boolean b) (List.mem_cons_self _ _)
          simp [isTFN] at h
      | nil =>
          have h := hnt OscValue.nil (List.mem_cons_self _ _)
          simp [isTFN] at h

end MCP2OSC

namespace MCP2OSC

/-- Full-message corollary: `parseOSCArgs` on an encoded message
decodes the arguments with the maximal trailing `T`/`F`/`N` run
removed. -/
theorem parseOSCArgs_encode (addr : List ℕ) (args : List OscValue)
    (haddr : ∀ b ∈ addr, b ≠ 0) (hwf : ∀ v ∈ args, WFValue v = true) :
    parseOSCArgs (createOSCMessage addr args) = (trimTFN args).map decodedVal := by
  have h := parseOSCArgs_encode_take addr args args.length haddr hwf
  rw [List.take_length] at h
  rw [createOSCMessage_eq_header_payload]
  exact h

/-- `parseOSCMessage` from `src/unnamed/part_005` on an encoded message
with `i`/`f`/`s` arguments returns the address and all arguments. -/
theorem part005Parse_encode (addr : List ℕ) (args : List OscValue)
    (haddr : ∀ b ∈ addr, b ≠ 0) (hwf : ∀ v ∈ args, WFValue v = true)
    (hnt : ∀ v ∈ args, isTFN v = false) :
    part005Parse (createOSCMessage addr args)
      = (utf8Encode addr, args.map decodedVal) := by
  have haddru : ∀ b ∈ utf8Encode addr, b ≠ 0 := utf8Encode_nonzero addr haddr
  obtain ⟨A, hA⟩ : ∃ A, A = padTo4Bytes (utf8Encode addr ++ [0]) := ⟨_, rfl⟩
  obtain ⟨tags, htags⟩ : ∃ tags, tags = args.map oscTypeTag := ⟨_, rfl⟩
  obtain ⟨T, hT⟩ : ∃ T, T = padTo4Bytes (44 :: tags ++ [0]) := ⟨_, rfl⟩
  obtain ⟨P, hP⟩ : ∃ P, P = payloadBytes args := ⟨_, rfl⟩
  have hbufshape : createOSCMessage addr args = A ++ (T ++ P) := by
    rw [createOSCMessage, ← htags, ← hA, ← hT, ← hP, List.append_assoc]
  have hAlen : A.length = roundUpTo4 ((utf8Encode addr).length + 1) := by
    rw [hA, padTo4Bytes_length]
    simp
  have hTlen : T.length = roundUpTo4 (tags.length + 2) := by
    rw [hT, padTo4Bytes_length]
    simp only [List.length_cons, List.length_append, List.length_nil]
  have hTge : tags.length + 2 ≤ T.length := by
    rw [hTlen]; exact roundUpTo4_ge _
  have hA4 : A.length % 4 = 0 := by rw [hA]; exact padTo4Bytes_length_mod _
  have haddrshape : A ++ (T ++ P)
      = utf8Encode addr ++ 0 :: (List.replicate ((4 - ((utf8Encode addr).length + 1) % 4) % 4) 0 ++ (T ++ P)) := by
    rw [hA, padAddr_shape]; simp [List.append_assoc]
  have hfz : findZero (createOSCMessage addr args) 0 = (utf8Encode addr).length := by
    rw [hbufshape, haddrshape]
    have h := findZero_exact [] (utf8Encode addr)
      (List.replicate ((4 - ((utf8Encode addr).length + 1) % 4) % 4) 0 ++ (T ++ P)) haddru
    simpa using h
  have hsc0 : scanToZero (createOSCMessage addr args) 0 = utf8Encode addr := by
    rw [hbufshape, haddrshape]
    have h := scanToZero_exact [] (utf8Encode addr)
      (List.replicate ((4 - ((utf8Encode addr).length + 1) % 4) % 4) 0 ++ (T ++ P)) haddru
    simpa using h
  have hlenbuf : (createOSCMessage addr args).length = A.length + T.length + P.length := by
    rw [hbufshape]; simp [List.append_assoc]; omega
  have hle1 : roundUpTo4 ((utf8Encode addr).length + 1) ≤ (createOSCMessage addr args).length := by
    rw [hlenbuf, ← hAlen]; omega
  have ho1 : skipPad (createOSCMessage addr args) ((utf8Encode addr).length + 1) = A.length := by
    rw [skipPad_eq _ _ hle1, ← hAlen]
  have hcomma : (createOSCMessage addr args).getD A.length 0 = 44 := by
    rw [hbufshape]
    have h := getD_add_append A (T ++ P) 0
    rw [Nat.add_zero] at h
    rw [h, hT, padTags_shape, List.cons_append]
    rfl
  have htagshape : A ++ (T ++ P)
      = (A ++ [44]) ++ (tags ++ 0 ::
          (List.replicate ((4 - (tags.length + 2) % 4) % 4) 0 ++ P)) := by
    rw [hT, padTags_shape]
    simp [List.append_assoc]
  have h44len : (A ++ [44]).length = A.length + 1 := by simp
  have htagnz : ∀ b ∈ tags, b ≠ 0 := by
    rw [htags]; exact tags_ne_zero args
  have hscan : scanToZero (createOSCMessage addr args) (A.length + 1) = tags := by
    rw [hbufshape, htagshape, ← h44len]
    exact scanToZero_exact (A ++ [44]) tags _ htagnz
  have hfz2 : findZero (createOSCMessage addr args) (A.length + 1)
      = A.length + 1 + tags.length := by
    rw [hbufshape, htagshape, ← h44len]
    rw [findZero_exact (A ++ [44]) tags _ htagnz, h44len]
  have hle2 : roundUpTo4 (A.length + (tags.length + 2)) ≤ (createOSCMessage addr args).length := by
    rw [roundUpTo4_add _ _ hA4, ← hTlen, hlenbuf]; omega
  have ho2 : skipPad (createOSCMessage addr args) (A.length + 1 + tags.length + 1)
      = A.length + T.length := by
    have harr : A.length + 1 + tags.length + 1 = A.length + (tags.length + 2) := by omega
    rw [harr, skipPad_eq _ _ hle2, roundUpTo4_add _ _ hA4, ← hTlen]
  rw [part005Parse]
  simp only [hfz, hsc0, ho1, hcomma, hscan, hfz2]
  rw [if_neg (by rw [hlenbuf]; omega), if_pos trivial]
  dsimp only
  rw [ho2]
  have hAT : createOSCMessage addr args = (A ++ T) ++ P := by
    rw [hbufshape, ← List.append_assoc]
  have hATlen : A.length + T.length = (A ++ T).length := by simp
  rw [hAT, hATlen, hP, htags]
  rw [part005Loop_spec args (A ++ T)
    (by
      have hT4 : T.length % 4 = 0 := by rw [hT]; exact padTo4Bytes_length_mod _
      rw [← hATlen]; omega) hwf hnt]

/-- `parseOSCMessage` from `src/stop.js` on an encoded message with
`i`/`f`/`s` arguments returns the address and all arguments without
throwing. -/
theorem stopParse_encode (addr : List ℕ) (args : List OscValue)
    (haddr : ∀ b ∈ addr, b ≠ 0) (hu : ∀ c ∈ addr, c < 65536)
    (hwf : ∀ v ∈ args, WFValue v = true)
    (hnt : ∀ v ∈ args, isTFN v = false) :
    stopParseOSCMessage (createOSCMessage addr args)
      = Except.ok (addr, args.map toJSVal) := by
  have haddru : ∀ b ∈ utf8Encode addr, b ≠ 0 := utf8Encode_nonzero addr haddr
  obtain ⟨A, hA⟩ : ∃ A, A = padTo4Bytes (utf8Encode addr ++ [0]) := ⟨_, rfl⟩
  obtain ⟨tags, htags⟩ : ∃ tags, tags = args.map oscTypeTag := ⟨_, rfl⟩
  obtain ⟨T, hT⟩ : ∃ T, T = padTo4Bytes (44 :: tags ++ [0]) := ⟨_, rfl⟩
  obtain ⟨P, hP⟩ : ∃ P, P = payloadBytes args := ⟨_, rfl⟩
  have hbufshape : createOSCMessage addr args = A ++ (T ++ P) := by
    rw [createOSCMessage, ← htags, ← hA, ← hT, ← hP, List.append_assoc]
  have hAlen : A.length = roundUpTo4 ((utf8Encode addr).length + 1) := by
    rw [hA, padTo4Bytes_length]
    simp
  have hTlen : T.length = roundUpTo4 (tags.length + 2) := by
    rw [hT, padTo4Bytes_length]
    simp only [List.length_cons, List.length_append, List.length_nil]
  have hTge : tags.length + 2 ≤ T.length := by
    rw [hTlen]; exact roundUpTo4_ge _
  have hA4 : A.length % 4 = 0 := by rw [hA]; exact padTo4Bytes_length_mod _
  have hT4 : T.length % 4 = 0 := by rw [hT]; exact padTo4Bytes_length_mod _
  have haddrshape : A ++ (T ++ P)
      = utf8Encode addr ++ 0 :: (List.replicate ((4 - ((utf8Encode addr).length + 1) % 4) % 4) 0 ++ (T ++ P)) := by
    rw [hA, padAddr_shape]; simp [List.append_assoc]
  have hfz : findZero (createOSCMessage addr args) 0 = (utf8Encode addr).length := by
    rw [hbufshape, haddrshape]
    have h := findZero_exact [] (utf8Encode addr)
      (List.replicate ((4 - ((utf8Encode addr).length + 1) % 4) % 4) 0 ++ (T ++ P)) haddru
    simpa using h
  have hlenbuf : (createOSCMessage addr args).length = A.length + T.length + P.length := by
    rw [hbufshape]; simp [List.append_assoc]; omega
  have hAltlen : (utf8Encode addr).length + 1 ≤ A.length := by
    rw [hAlen]; have := roundUpTo4_ge ((utf8Encode addr).length + 1); omega
  have hidx0 : jsIndexOfZero (createOSCMessage addr args) 0 = some (utf8Encode addr).length := by
    rw [jsIndexOfZero, hfz, if_pos (by rw [hlenbuf]; omega)]
  have htake : jsSubarray (createOSCMessage addr args) 0 (utf8Encode addr).length
      = utf8Encode addr := by
    rw [hbufshape, haddrshape, jsSubarray, List.drop_zero]
    rw [show utf8Encode addr ++ 0 :: (List.replicate ((4 - ((utf8Encode addr).length + 1) % 4) % 4) 0 ++ (T ++ P))
        = utf8Encode addr ++ (0 :: (List.replicate ((4 - ((utf8Encode addr).length + 1) % 4) % 4) 0 ++ (T ++ P))) from rfl]
    exact List.take_left (utf8Encode addr) _
  have hdec : utf8Decode (utf8Encode addr) = addr := utf8Decode_utf8Encode addr hu
  have htagshape : A ++ (T ++ P)
      = A ++ ((44 :: tags) ++ 0 ::
          (List.replicate ((4 - (tags.length + 2) % 4) % 4) 0 ++ P)) := by
    rw [hT, padTags_shape]
    simp [List.append_assoc]
  have htagnz2 : ∀ b ∈ 44 :: tags, b ≠ 0 := by
    intro b hb
    rcases List.mem_cons.mp hb with rfl | hmem
    · omega
    · exact tags_ne_zero args b (htags ▸ hmem)
  have hfzA : findZero (createOSCMessage addr args) A.length
      = A.length + (tags.length + 1) := by
    rw [hbufshape, htagshape]
    have h := findZero_exact A (44 :: tags)
      (List.replicate ((4 - (tags.length + 2) % 4) % 4) 0 ++ P) htagnz2
    simpa using h
  have hidxA : jsIndexOfZero (createOSCMessage addr args) A.length
      = some (A.length + 1 + tags.length) := by
    rw [jsIndexOfZero, hfzA, if_pos (by rw [hlenbuf]; omega)]
    rw [show A.length + (tags.length + 1) = A.length + 1 + tags.length by omega]
  have hsub : jsSubarray (createOSCMessage addr args) (A.length + 1) (A.length + 1 + tags.length)
      = tags := by
    have hsplit : createOSCMessage addr args
        = (A ++ [44]) ++ (tags ++ (0 ::
            (List.replicate ((4 - (tags.length + 2) % 4) % 4) 0 ++ P))) := by
      rw [hbufshape, htagshape]
      simp [List.append_assoc]
    rw [hsplit]
    have h := jsSubarray_append (A ++ [44]) tags
      (0 :: (List.replicate ((4 - (tags.length + 2) % 4) % 4) 0 ++ P))
    simpa using h
  have hround2 : roundUpTo4 (A.length + 1 + tags.length + 1) = A.length + T.length := by
    rw [show A.length + 1 + tags.length + 1 = A.length + (tags.length + 2) by omega]
    rw [roundUpTo4_add _ _ hA4, ← hTlen]
  rw [stopParseOSCMessage]
  simp only [hidx0, htake, hdec, hAlen]
  rw [← hAlen]
  simp only [hidxA, hsub, hround2]
  have hAT : createOSCMessage addr args = (A ++ T) ++ P := by
    rw [hbufshape, ← List.append_assoc]
  have hATlen : A.length + T.length = (A ++ T).length := by simp
  rw [hAT, hATlen, hP, htags]
  rw [stopLoop_spec args (A ++ T) (by rw [← hATlen]; omega) hwf hnt]
  rfl

end MCP2OSC

namespace MCP2OSC

/-! ## Timetag arithmetic -/

theorem floor_nat_div (a b : ℕ) (hb : 0 < b) :
    ⌊(a : ℚ) / (b : ℚ)⌋ = ((a / b : ℕ) : ℤ) := by
  have hb' : (0 : ℚ) < (b : ℚ) := by exact_mod_cast hb
  rw [Int.floor_eq_iff]
  constructor
  · rw [le_div_iff₀ hb']
    have h := Nat.div_mul_le_self a b
    exact_mod_cast h
  · rw [div_lt_iff₀ hb']
    have h : a < (a / b + 1) * b := by
      have h1 := Nat.div_add_mod a b
      have h2 := Nat.mod_lt a hb
      calc a = b * (a / b) + a % b := h1.symm
        _ < b * (a / b) + b := by omega
        _ = (a / b + 1) * b := by ring
    exact_mod_cast h

theorem jsRound_nat_div (a b : ℕ) (hb : 0 < b) :
    jsRound ((a : ℚ) / (b : ℚ)) = (((2 * a + b) / (2 * b) : ℕ) : ℤ) := by
  unfold jsRound
  have hb' : ((b : ℚ)) ≠ 0 := by
    have : (0 : ℚ) < (b : ℚ) := by exact_mod_cast hb
    exact ne_of_gt this
  have hq : (a : ℚ) / b + 1 / 2 = ((2 * a + b : ℕ) : ℚ) / ((2 * b : ℕ) : ℚ) := by
    push_cast
    field_simp
    ring
  rw [hq, floor_nat_div _ _ (by omega)]

/-- Closed form for the fraction the encoder writes. -/
theorem encode_fraction_eq (m : ℕ) :
    jsRound ((m : ℚ) / 1000 * 4294967295)
      = (((2 * (m * 4294967295) + 1000) / 2000 : ℕ) : ℤ) := by
  rw [show (m : ℚ) / 1000 * 4294967295
      = ((m * 4294967295 : ℕ) : ℚ) / ((1000 : ℕ) : ℚ) by push_cast; ring]
  rw [jsRound_nat_div _ _ (by omega)]

/-- Closed form for the milliseconds the decoder computes. -/
theorem decode_fraction_eq (r : ℕ) :
    jsRound ((r : ℚ) / 4294967295 * 1000)
      = (((2 * (r * 1000) + 4294967295) / (2 * 4294967295) : ℕ) : ℤ) := by
  rw [show (r : ℚ) / 4294967295 * 1000
      = ((r * 1000 : ℕ) : ℚ) / ((4294967295 : ℕ) : ℚ) by push_cast; ring]
  rw [jsRound_nat_div _ _ (by omega)]

theorem readUInt32_pair_fst (w v : ℕ) (hw : w < 4294967296) :
    readUInt32 (uint32bytes w ++ uint32bytes v) 0 = w := by
  have h := readUInt32_append [] (uint32bytes v) w hw
  simpa using h

theorem readUInt32_pair_snd (w v : ℕ) (hv : v < 4294967296) :
    readUInt32 (uint32bytes w ++ uint32bytes v) 4 = v := by
  have h := readUInt32_append (uint32bytes w) [] v hv
  simpa using h

/-- Millisecond fidelity of the double rounding: re-rounding the
encoded 32-bit fraction recovers the original sub-second
milliseconds. -/
theorem fraction_roundtrip (m : ℕ) :
    (2 * ((2 * (m * 4294967295) + 1000) / 2000 * 1000) + 4294967295)
        / (2 * 4294967295) = m := by
  omega

end MCP2OSC

namespace MCP2OSC

/-- Roundtrip of a non-zero, in-range timetag: encoding then decoding
recovers the unix milliseconds exactly. -/
theorem createOSCTimetag_roundtrip (t : ℕ) (h0 : t ≠ 0)
    (hr : t / 1000 + 2208988800 < 4294967296) :
    ∃ b, createOSCTimetag t = some b ∧ parseOSCTimetag b = (t : ℤ) := by
  have hm : t % 1000 < 1000 := Nat.mod_lt _ (by omega)
  obtain ⟨r, hrdef⟩ : ∃ r, r = (2 * (t % 1000 * 4294967295) + 1000) / 2000 := ⟨_, rfl⟩
  have hrlt : r < 4294967296 := by rw [hrdef]; omega
  refine ⟨uint32bytes (t / 1000 + 2208988800) ++ uint32bytes r, ?_, ?_⟩
  · rw [createOSCTimetag, if_neg h0]
    dsimp only
    rw [encode_fraction_eq (t % 1000), ← hrdef]
    rw [if_pos ⟨hr, by positivity, by exact_mod_cast hrlt⟩]
    simp
  · rw [parseOSCTimetag]
    rw [readUInt32_pair_fst _ _ (by omega), readUInt32_pair_snd _ _ hrlt]
    rw [decode_fraction_eq r]
    have hfr := fraction_roundtrip (t % 1000)
    rw [← hrdef] at hfr
    rw [hfr]
    push_cast
    omega

end MCP2OSC

namespace MCP2OSC

/-! ## Bundle element loop lemmas -/

theorem elemsBytes_nil : elemsBytes [] = [] := rfl

theorem elemsBytes_cons (e : List ℕ) (es : List (List ℕ)) :
    elemsBytes (e :: es) = uint32bytes e.length ++ e ++ elemsBytes es := by
  simp [elemsBytes]

theorem jsSubarray_length (buf : List ℕ) (s e : ℕ) :
    (jsSubarray buf s e).length = min e buf.length - s := by
  simp [jsSubarray]

theorem bundleElemsAux_step (buf : List ℕ) (f off : ℕ)
    (h1 : off < buf.length) (h2 : off + 4 ≤ buf.length)
    (h3 : readUInt32 buf off ≠ 0) (h4 : off + 4 + readUInt32 buf off ≤ buf.length) :
    bundleElemsAux buf (f + 1) off
      = jsSubarray buf (off + 4) (off + 4 + readUInt32 buf off) ::
          bundleElemsAux buf f (off + 4 + readUInt32 buf off) := by
  rw [bundleElemsAux]
  rw [if_pos h1, if_neg (Nat.not_lt.mpr h2)]
  dsimp only
  rw [if_neg (by push_neg; exact ⟨h3, h4⟩)]

theorem bundleElemsAux_break (buf : List ℕ) (f off : ℕ)
    (h1 : off < buf.length) (h2 : off + 4 ≤ buf.length)
    (h3 : readUInt32 buf off = 0 ∨ buf.length < off + 4 + readUInt32 buf off) :
    bundleElemsAux buf (f + 1) off = [] := by
  rw [bundleElemsAux]
  rw [if_pos h1, if_neg (Nat.not_lt.mpr h2)]
  dsimp only
  rw [if_pos h3]

/-- The element loop decodes a well-formed prefix of size-prefixed
elements and stops, returning exactly those elements, when it meets a
declared size that is zero or overruns the buffer. -/
theorem bundleElemsAux_good_bad (es : List (List ℕ)) (fuel : ℕ) (pre rest : List ℕ)
    (badsize : ℕ)
    (hwf : ∀ e ∈ es, 1 ≤ e.length ∧ e.length < 4294967296)
    (hfuel : es.length < fuel)
    (hbad : badsize = 0 ∨ rest.length < badsize) (hbadlt : badsize < 4294967296) :
    bundleElemsAux (pre ++ (elemsBytes es ++ (uint32bytes badsize ++ rest))) fuel pre.length
      = es := by
  induction es generalizing pre fuel with
  | nil =>
      rw [elemsBytes_nil, List.nil_append]
      obtain ⟨f, rfl⟩ : ∃ f, fuel = f + 1 := ⟨fuel - 1, by omega⟩
      have hread : readUInt32 (pre ++ (uint32bytes badsize ++ rest)) pre.length = badsize :=
        readUInt32_append pre rest badsize hbadlt
      have hlen : (pre ++ (uint32bytes badsize ++ rest)).length
          = pre.length + 4 + rest.length := by
        simp [uint32bytes]; omega
      apply bundleElemsAux_break _ _ _ (by omega) (by omega)
      rw [hread]
      rcases hbad with h | h
      · exact Or.inl h
      · exact Or.inr (by omega)
  | cons e es ih =>
      obtain ⟨f, rfl⟩ : ∃ f, fuel = f + 1 := ⟨fuel - 1, by omega⟩
      have hwe : 1 ≤ e.length ∧ e.length < 4294967296 :=
        hwf e (List.mem_cons_self e es)
      have hwf' : ∀ x ∈ es, 1 ≤ x.length ∧ x.length < 4294967296 :=
        fun x hx => hwf x (List.mem_cons_of_mem e hx)
      obtain ⟨R, hR⟩ : ∃ R, R = elemsBytes es ++ (uint32bytes badsize ++ rest) := ⟨_, rfl⟩
      have hshape : pre ++ (elemsBytes (e :: es) ++ (uint32bytes badsize ++ rest))
          = pre ++ (uint32bytes e.length ++ (e ++ R)) := by
        rw [elemsBytes_cons, hR]
        simp [List.append_assoc]
      rw [hshape]
      have hread : readUInt32 (pre ++ (uint32bytes e.length ++ (e ++ R))) pre.length
          = e.length := readUInt32_append pre (e ++ R) e.length hwe.2
      have hlen : (pre ++ (uint32bytes e.length ++ (e ++ R))).length
          = pre.length + 4 + e.length + R.length := by
        simp [uint32bytes]; omega
      rw [bundleElemsAux_step _ f _ (by omega) (by omega)
        (by rw [hread]; omega) (by rw [hread]; omega)]
      rw [hread]
      have hsub : jsSubarray (pre ++ (uint32bytes e.length ++ (e ++ R)))
          (pre.length + 4) (pre.length + 4 + e.length) = e := by
        have h := jsSubarray_append (pre ++ uint32bytes e.length) e R
        have hl : (pre ++ uint32bytes e.length).length = pre.length + 4 := by
          simp [uint32bytes]
        rw [hl] at h
        have hassoc : pre ++ uint32bytes e.length ++ (e ++ R)
            = pre ++ (uint32bytes e.length ++ (e ++ R)) := by
          simp [List.append_assoc]
        rw [hassoc] at h
        exact h
      rw [hsub]
      congr 1
      have hpre2 : pre.length + 4 + e.length
          = (pre ++ uint32bytes e.length ++ e).length := by
        simp [uint32bytes]; omega
      have hbuf2 : pre ++ (uint32bytes e.length ++ (e ++ R))
          = (pre ++ uint32bytes e.length ++ e) ++ R := by
        simp [List.append_assoc]
      rw [hpre2, hbuf2, hR]
      exact ih f (pre ++ uint32bytes e.length ++ e) hwf' (by simp at hfuel; omega)

/-- With at least `fuel` well-formed elements in the buffer, the loop
returns exactly the first `fuel` of them: the element-count ceiling
truncates, it does not error. -/
theorem bundleElemsAux_truncate (fuel : ℕ) (es : List (List ℕ)) (pre rest : List ℕ)
    (hwf : ∀ e ∈ es, 1 ≤ e.length ∧ e.length < 4294967296)
    (hfuel : fuel ≤ es.length) :
    bundleElemsAux (pre ++ (elemsBytes es ++ rest)) fuel pre.length = es.take fuel := by
  induction fuel generalizing es pre with
  | zero => rw [bundleElemsAux]; rfl
  | succ f ih =>
      cases es with
      | nil => simp at hfuel
      | cons e es =>
          have hwe : 1 ≤ e.length ∧ e.length < 4294967296 :=
            hwf e (List.mem_cons_self e es)
          have hwf' : ∀ x ∈ es, 1 ≤ x.length ∧ x.length < 4294967296 :=
            fun x hx => hwf x (List.mem_cons_of_mem e hx)
          obtain ⟨R, hR⟩ : ∃ R, R = elemsBytes es ++ rest := ⟨_, rfl⟩
          have hshape : pre ++ (elemsBytes (e :: es) ++ rest)
              = pre ++ (uint32bytes e.length ++ (e ++ R)) := by
            rw [elemsBytes_cons, hR]
            simp [List.append_assoc]
          rw [hshape]
          have hread : readUInt32 (pre ++ (uint32bytes e.length ++ (e ++ R))) pre.length
              = e.length := readUInt32_append pre (e ++ R) e.length hwe.2
          have hlen : (pre ++ (uint32bytes e.length ++ (e ++ R))).length
              = pre.length + 4 + e.length + R.length := by
            simp [uint32bytes]; omega
          rw [bundleElemsAux_step _ f _ (by omega) (by omega)
            (by rw [hread]; omega) (by rw [hread]; omega)]
          rw [hread]
          have hsub : jsSubarray (pre ++ (uint32bytes e.length ++ (e ++ R)))
              (pre.length + 4) (pre.length + 4 + e.length) = e := by
            have h := jsSubarray_append (pre ++ uint32bytes e.length) e R
            have hl : (pre ++ uint32bytes e.length).length = pre.length + 4 := by
              simp [uint32bytes]
            rw [hl] at h
            have hassoc : pre ++ uint32bytes e.length ++ (e ++ R)
                = pre ++ (uint32bytes e.length ++ (e ++ R)) := by
              simp [List.append_assoc]
            rw [hassoc] at h
            exact h
          rw [hsub, List.take_succ_cons]
          congr 1
          have hpre2 : pre.length + 4 + e.length
              = (pre ++ uint32bytes e.length ++ e).length := by
            simp [uint32bytes]; omega
          have hbuf2 : pre ++ (uint32bytes e.length ++ (e ++ R))
              = (pre ++ uint32bytes e.length ++ e) ++ R := by
            simp [List.append_assoc]
          rw [hpre2, hbuf2, hR]
          exact ih es (pre ++ uint32bytes e.length ++ e) hwf' (by simp at hfuel; omega)

/-- The element ceiling: the loop never returns more than `fuel`
elements (100 at the top level). -/
theorem bundleElemsAux_length_le (buf : List ℕ) (fuel : ℕ) :
    ∀ off, (bundleElemsAux buf fuel off).length ≤ fuel := by
  induction fuel with
  | zero => intro off; rw [bundleElemsAux]; simp
  | succ f ih =>
      intro off
      rw [bundleElemsAux]
      split_ifs with h1 h2
      · simp
      · dsimp only
        split_ifs with h3
        · simp
        · simp only [List.length_cons]
          have := ih (off + 4 + readUInt32 buf off)
          omega
      · simp

/-- Every element blob the loop extracts is strictly shorter than the
whole buffer: nested bundle decoding recurses on strictly smaller
input. -/
theorem bundleElemsAux_blob_lt (buf : List ℕ) (fuel : ℕ) :
    ∀ off, ∀ e ∈ bundleElemsAux buf fuel off, e.length < buf.length := by
  induction fuel with
  | zero => intro off e he; rw [bundleElemsAux] at he; simp at he
  | succ f ih =>
      intro off e he
      rw [bundleElemsAux] at he
      split_ifs at he with h1 h2
      · simp at he
      · dsimp only at he
        split_ifs at he with h3
        · simp at he
        · push_neg at h3
          rcases List.mem_cons.mp he with rfl | hmem
          · rw [jsSubarray_length]
            omega
          · exact ih _ e hmem
      · simp at he

end MCP2OSC

namespace MCP2OSC

/-! ## Length invariants -/

theorem createOSCMessage_length_mod (addr : List ℕ) (args : List OscValue) :
    (createOSCMessage addr args).length % 4 = 0 := by
  have h1 := padTo4Bytes_length_mod (utf8Encode addr ++ [0])
  have h2 := padTo4Bytes_length_mod (44 :: args.map oscTypeTag ++ [0])
  have h3 := payloadBytes_length_mod args
  simp only [createOSCMessage, List.length_append]
  omega

theorem createOSCTimetag_length (t : ℕ) (b : List ℕ)
    (h : createOSCTimetag t = some b) : b.length = 8 := by
  rw [createOSCTimetag] at h
  dsimp only at h
  split_ifs at h with h0 h1
  · have hb := Option.some.inj h
    rw [← hb]; rfl
  · have hb := Option.some.inj h
    rw [← hb]; rfl

theorem elemsBytes_length_mod (es : List (List ℕ))
    (h : ∀ e ∈ es, e.length % 4 = 0) : (elemsBytes es).length % 4 = 0 := by
  induction es with
  | nil => rfl
  | cons e es ih =>
      rw [elemsBytes_cons]
      have he := h e (List.mem_cons_self e es)
      have hr := ih (fun x hx => h x (List.mem_cons_of_mem e hx))
      simp only [List.length_append, uint32bytes, List.length_cons, List.length_nil]
      omega

theorem createOSCBundle_length_mod (msgs : List (List ℕ × List OscValue)) (t : ℕ)
    (b : List ℕ) (h : createOSCBundle msgs t = some b) : b.length % 4 = 0 := by
  rw [createOSCBundle] at h
  rcases Option.map_eq_some'.mp h with ⟨tb, htb, hb⟩
  have h8 := createOSCTimetag_length t tb htb
  have helems := elemsBytes_length_mod (msgs.map fun m => createOSCMessage m.1 m.2)
    (by
      intro e he
      rcases List.mem_map.mp he with ⟨m, _, rfl⟩
      exact createOSCMessage_length_mod m.1 m.2)
  rw [← hb]
  simp only [List.length_append, bundleHeaderBytes, List.length_cons, List.length_nil]
  omega

end MCP2OSC

namespace MCP2OSC

theorem trimTFN_eq_self_of_noTFN (l : List OscValue)
    (h : ∀ v ∈ l, isTFN v = false) : trimTFN l = l := by
  induction l with
  | nil => rfl
  | cons a l ih =>
      rw [trimTFN_cons_false a l (h a (List.mem_cons_self a l)),
        ih (fun v hv => h v (List.mem_cons_of_mem a hv))]

/-! ## Claims -/

/-- C1 (counterexample): the claim `decode(encode(m)) = m` fails as
stated, in two independent ways.  (1) The message with address `"/a"`
and the single argument `Bool(true)` — whose address is non-empty,
starts with `'/'`, and whose argument list is drawn from the allowed
set — encodes to the 8 bytes `2f 61 00 00 2c 54 00 00`, but
`parseOSCArgs` decodes no arguments at all: the `offset + 4 >
buffer.length` break fires before the `'T'` tag is interpreted.
(2) The message with address `"/a"` and the single argument
`Str("é")` (code unit 233) encodes the string through `Buffer.from`
as the two UTF-8 bytes `c3 a9`, but `parseOSCArgs` rebuilds the
string with one `String.fromCharCode` per byte, returning the
two-unit string `[195, 169]` (`"Ã©"`) instead of `[233]`. -/
theorem C1_counterexample :
    (createOSCMessage [47, 97] [OscValue.boolean true] = [47, 97, 0, 0, 44, 84, 0, 0] ∧
      parseOSCArgs [47, 97, 0, 0, 44, 84, 0, 0] = [] ∧
      ([] : List JSVal) ≠ [OscValue.boolean true].map toJSVal) ∧
    (createOSCMessage [47, 97] [OscValue.str [233]]
        = [47, 97, 0, 0, 44, 115, 0, 0, 195, 169, 0, 0] ∧
      parseOSCArgs [47, 97, 0, 0, 44, 115, 0, 0, 195, 169, 0, 0]
        = [JSVal.str [195, 169]] ∧
      ([JSVal.str [195, 169]] : List JSVal) ≠ [OscValue.str [233]].map toJSVal) := by
  refine ⟨⟨by decide, by decide, by decide⟩, ⟨by decide, by decide, by decide⟩⟩

/-- C1 (amended): for every OSC message whose address is non-empty,
starts with `'/'`, and consists of non-NUL, non-surrogate BMP code
units, and whose argument list is drawn from `{Int32, Float32, Str,
Bool, Nil}` with in-range integers, NUL-free valid-code-unit strings
that are moreover ASCII, and no trailing run of `Bool`/`Nil`
arguments, decoding the bytes produced by encoding yields the same
address and the same argument list, value for value and in order
(floats compared by 32-bit pattern).  Without the
no-trailing-`Bool`/`Nil` restriction the decoder drops exactly that
trailing run (`C5_truncation`); without the ASCII restriction on
string arguments the `String.fromCharCode` scanner returns the UTF-8
bytes of the string rather than the string (`C1_counterexample`). -/
theorem C1_roundtrip (addr : List ℕ) (args : List OscValue)
    (h1 : addr ≠ []) (h2 : addr.headD 0 = 47) (h3 : ∀ b ∈ addr, b ≠ 0)
    (h3b : ∀ c ∈ addr, validUnit c = true)
    (h4 : ∀ v ∈ args, WFValue v = true) (h5 : trimTFN args = args)
    (h6 : ∀ v ∈ args, asciiStr v = true) :
    parseOSCAddress (createOSCMessage addr args) = addr ∧
    parseOSCArgs (createOSCMessage addr args) = args.map toJSVal := by
  refine ⟨parseOSCAddress_encode addr args h1 h3
    (fun c hc => validUnit_lt c (h3b c hc)), ?_⟩
  rw [parseOSCArgs_encode addr args h3 h4, h5, map_decodedVal_eq args h6]

/-- Witness for C1: a concrete roundtrip through all five argument
kinds that satisfies the hypotheses. -/
theorem C1_roundtrip_witness :
    (([47, 97] : List ℕ) ≠ [] ∧ ([47, 97] : List ℕ).headD 0 = 47 ∧
      (∀ b ∈ ([47, 97] : List ℕ), b ≠ 0) ∧
      (∀ c ∈ ([47, 97] : List ℕ), validUnit c = true) ∧
      (∀ v ∈ [OscValue.i32 5, OscValue.str [104, 105], OscValue.boolean true,
        OscValue.nil, OscValue.f32 1138491392], WFValue v = true) ∧
      trimTFN [OscValue.i32 5, OscValue.str [104, 105], OscValue.boolean true,
        OscValue.nil, OscValue.f32 1138491392]
        = [OscValue.i32 5, OscValue.str [104, 105], OscValue.boolean true,
          OscValue.nil, OscValue.f32 1138491392] ∧
      (∀ v ∈ [OscValue.i32 5, OscValue.str [104, 105], OscValue.boolean true,
        OscValue.nil, OscValue.f32 1138491392], asciiStr v = true)) ∧
    (parseOSCAddress (createOSCMessage [47, 97]
        [OscValue.i32 5, OscValue.str [104, 105], OscValue.boolean true,
          OscValue.nil, OscValue.f32 1138491392]) = [47, 97] ∧
      parseOSCArgs (createOSCMessage [47, 97]
        [OscValue.i32 5, OscValue.str [104, 105], OscValue.boolean true,
          OscValue.nil, OscValue.f32 1138491392])
        = [OscValue.i32 5, OscValue.str [104, 105], OscValue.boolean true,
          OscValue.nil, OscValue.f32 1138491392].map toJSVal) :=
  ⟨⟨by decide, by decide, by decide, by decide, by decide, by decide, by decide⟩,
    C1_roundtrip [47, 97] _ (by decide) (by decide) (by decide) (by decide)
      (by decide) (by decide) (by decide)⟩

/-- C2 (counterexample): decoding the 8 bytes `00 00 00 00 00 00 00 01`
does not return the Immediate sentinel.  `parseOSCTimetag` has no
special case for the `(0, 1)` pair: it always applies the NTP-to-Unix
arithmetic and returns an absolute time (`At`), whereas the
spec-modelled decoder maps those bytes to `Immediate`. -/
theorem C2_counterexample :
    specDecodeTimetag [0, 0, 0, 0, 0, 0, 0, 1] = OscTimetag.immediate ∧
    OscTimetag.atMs (parseOSCTimetag [0, 0, 0, 0, 0, 0, 0, 1]) ≠ OscTimetag.immediate := by
  refine ⟨by decide, by decide⟩

/-- C2 (amended): encoding the Immediate timetag (timestamp `0`)
produces exactly the 8 bytes `00 00 00 00 00 00 00 01`; decoding those
same 8 bytes applies the NTP-to-Unix arithmetic and returns the
absolute time `-2208988800000` unix milliseconds (the 1900 epoch), not
an Immediate sentinel. -/
theorem C2_immediate :
    createOSCTimetag 0 = some [0, 0, 0, 0, 0, 0, 0, 1] ∧
    parseOSCTimetag [0, 0, 0, 0, 0, 0, 0, 1] = -2208988800000 := by
  constructor
  · decide
  · norm_num [parseOSCTimetag, jsRound, readUInt32, List.getD]

/-- C3 (counterexample): the spec's deterministic mapping `tag_for` is
not what the code computes when it infers tags itself
(`sendOSCMessages` lines 894–907 and the inline inference of
`createOSCMessage` lines 1201–1209).  The code's inference `inferTag`
maps `Nil` to `'s'` (115), not the spec's `'N'` (78): `typeof null` is
neither `'number'` nor `'boolean'`, so `null` falls to the string
default.  And it maps the integer-valued `Float32(440.0)` (bit pattern
`0x43DC0000`) to `'i'` (105), not the spec's `'f'` (102):
`Number.isInteger(440.0)` is true in JS. -/
theorem C3_counterexample :
    (inferTag OscValue.nil = 115 ∧ (115 : ℕ) ≠ 78) ∧
    (inferTag (OscValue.f32 1138491392) = 105 ∧ (105 : ℕ) ≠ 102) := by
  refine ⟨⟨by decide, by decide⟩, ⟨by decide, by decide⟩⟩

/-- C3 (amended): the spec's mapping `Int32→'i'`, `Float32→'f'`,
`Str→'s'`, `Bool(true)→'T'`, `Bool(false)→'F'`, `Nil→'N'` is realised
only by caller-supplied `type_tags` (validated against
`/^[ifsbtTFNI]*$/` and passed verbatim to `createOSCMessage`), modelled
by `oscTypeTag`; under those canonical tags the message's type-tag
string is the tags concatenated in argument order prefixed with `','`
(then NUL-terminated and padded), and encoding `"/synth/freq"` with
the single argument `Float32(440.0)` tagged `'f'` yields the 12
address bytes, the tag bytes `2c 66 00 00`, and the 4 argument bytes
`43 dc 00 00`.  The code's own inference (`inferTag`, used when no
`type_tags` are supplied) deviates from the spec's mapping exactly on
`Nil` (inferred `'s'`) and on integer-valued `Float32` patterns
(inferred `'i'`): a number is tagged `'i'` iff `Number.isInteger`
holds of it. -/
theorem C3_tag_mapping :
    (∀ v, oscTypeTag v = specTagFor v) ∧
    (∀ (addr : List ℕ) (args : List OscValue),
      createOSCMessage addr args
        = padTo4Bytes (utf8Encode addr ++ [0]) ++
            padTo4Bytes (44 :: args.map specTagFor ++ [0]) ++ payloadBytes args) ∧
    createOSCMessage [47, 115, 121, 110, 116, 104, 47, 102, 114, 101, 113]
        [OscValue.f32 1138491392]
      = [47, 115, 121, 110, 116, 104, 47, 102, 114, 101, 113, 0,
          44, 102, 0, 0, 67, 220, 0, 0] ∧
    (∀ n, inferTag (OscValue.i32 n) = 105) ∧
    (∀ w, inferTag (OscValue.f32 w) = if f32IsInteger w then 105 else 102) ∧
    (∀ t, inferTag (OscValue.str t) = 115) ∧
    inferTag (OscValue.boolean true) = 84 ∧
    inferTag (OscValue.boolean false) = 70 ∧
    inferTag OscValue.nil = 115 := by
  have hmap : ∀ v, oscTypeTag v = specTagFor v := by
    intro v
    cases v with
    | boolean b => cases b <;> rfl
    | _ => rfl
  refine ⟨hmap, ?_, by decide, fun n => rfl, fun w => rfl, fun t => rfl,
    rfl, rfl, rfl⟩
  intro addr args
  rw [createOSCMessage]
  have h : args.map oscTypeTag = args.map specTagFor :=
    List.map_congr_left (fun v _ => hmap v)
  rw [h]

/-- C4: whenever the declared 4-byte big-endian element size read
during bundle decoding is zero or exceeds the bytes remaining after it,
the element loop terminates at that element and yields exactly the
(well-formed, size-prefixed) elements decoded before it — it `break`s,
it does not raise.  `pre` is the portion of the buffer already
consumed; `handleOSCBundle` instantiates it with the 16 bytes of
`'#bundle\0'` marker plus timetag (`bundleElements buf =
bundleElemsAux buf 100 16`). -/
theorem C4_malformed_size_stops (es : List (List ℕ)) (pre rest : List ℕ) (badsize : ℕ)
    (hwf : ∀ e ∈ es, 1 ≤ e.length ∧ e.length < 4294967296)
    (hcount : es.length ≤ 99)
    (hbad : badsize = 0 ∨ rest.length < badsize) (hbadlt : badsize < 4294967296) :
    bundleElemsAux (pre ++ (elemsBytes es ++ (uint32bytes badsize ++ rest)))
      100 pre.length = es ∧
    (pre.length = 16 →
      bundleElements (pre ++ (elemsBytes es ++ (uint32bytes badsize ++ rest))) = es) := by
  have h := bundleElemsAux_good_bad es 100 pre rest badsize hwf (by omega) hbad hbadlt
  exact ⟨h, fun h16 => by rw [bundleElements, ← h16]; exact h⟩

/-- Witness for C4: one good element followed by a zero declared
size. -/
theorem C4_malformed_size_stops_witness :
    ((∀ e ∈ [[7]], 1 ≤ e.length ∧ e.length < 4294967296) ∧
      ([[7]] : List (List ℕ)).length ≤ 99 ∧ ((0 : ℕ) = 0 ∨ ([] : List ℕ).length < 0) ∧
      (0 : ℕ) < 4294967296) ∧
    (bundleElemsAux (List.replicate 16 0 ++ (elemsBytes [[7]] ++ (uint32bytes 0 ++ [])))
      100 (List.replicate 16 0).length = [[7]] ∧
    ((List.replicate 16 (0 : ℕ)).length = 16 →
      bundleElements (List.replicate 16 0 ++ (elemsBytes [[7]] ++ (uint32bytes 0 ++ [])))
        = [[7]])) :=
  ⟨⟨by decide, by decide, by decide, by decide⟩,
    C4_malformed_size_stops [[7]] (List.replicate 16 0) [] 0
      (by decide) (by decide) (by decide) (by decide)⟩

/-- C5 (counterexample): an argument tagged `'T'` is not decoded when
fewer than 4 bytes remain.  The complete encoded message for address
`"/a"` with arguments `[Int32(5), Bool(true)]` decodes to `[5]` only:
at the `'T'` tag zero bytes remain and the `offset + 4 >
buffer.length` break fires, so the claimed decode `[5, true]` is not
produced. -/
theorem C5_counterexample :
    createOSCMessage [47, 97] [OscValue.i32 5, OscValue.boolean true]
      = [47, 97, 0, 0, 44, 105, 84, 0, 0, 0, 0, 5] ∧
    parseOSCArgs [47, 97, 0, 0, 44, 105, 84, 0, 0, 0, 0, 5] = [JSVal.int 5] ∧
    ([JSVal.int 5] : List JSVal) ≠ [JSVal.int 5, JSVal.bool true] := by
  refine ⟨by decide, by decide, by decide⟩

/-- C5 (amended): for every message buffer cut off at an argument
boundary (the first `k` argument payloads retained, the type-tag
string intact), decoding returns — rather than raising — exactly the
arguments before the cut with their maximal trailing run of
`Bool`/`Nil` (`'T'`/`'F'`/`'N'`) arguments removed: the decoder
requires at least 4 remaining bytes before interpreting any tag,
including the zero-payload `'T'`/`'F'`/`'N'`, so such an argument at a
position with fewer than 4 remaining bytes ends decoding instead of
being decoded.  Each decoded argument is the JS value the scanner
builds (`decodedVal`): numbers and booleans as themselves, a string as
the code units of its UTF-8 payload bytes. -/
theorem C5_truncation (addr : List ℕ) (args : List OscValue) (k : ℕ)
    (haddr : ∀ b ∈ addr, b ≠ 0) (hwf : ∀ v ∈ args, WFValue v = true) :
    parseOSCArgs ((createOSCMessage addr args).take
        ((msgHeader addr args).length + (payloadBytes (args.take k)).length))
      = (trimTFN (args.take k)).map decodedVal := by
  have htake : (createOSCMessage addr args).take
      ((msgHeader addr args).length + (payloadBytes (args.take k)).length)
      = msgHeader addr args ++ payloadBytes (args.take k) := by
    rw [createOSCMessage_eq_header_payload]
    rw [show payloadBytes args = payloadBytes (args.take k) ++ payloadBytes (args.drop k) by
      rw [← payloadBytes_append, List.take_append_drop]]
    rw [List.take_append, List.take_left]
  rw [htake]
  exact parseOSCArgs_encode_take addr args k haddr hwf

/-- Witness for C5: cutting the message of `C5_counterexample` after
its first argument payload. -/
theorem C5_truncation_witness :
    ((∀ b ∈ ([47, 97] : List ℕ), b ≠ 0) ∧
      (∀ v ∈ [OscValue.i32 5, OscValue.boolean true], WFValue v = true)) ∧
    parseOSCArgs ((createOSCMessage [47, 97] [OscValue.i32 5, OscValue.boolean true]).take
        ((msgHeader [47, 97] [OscValue.i32 5, OscValue.boolean true]).length +
          (payloadBytes ([OscValue.i32 5, OscValue.boolean true].take 1)).length))
      = (trimTFN ([OscValue.i32 5, OscValue.boolean true].take 1)).map decodedVal :=
  ⟨⟨by decide, by decide⟩,
    C5_truncation [47, 97] [OscValue.i32 5, OscValue.boolean true] 1
      (by decide) (by decide)⟩

/-- C6: every encoded message (padded address + padded type-tag string
+ argument payloads) has byte length a multiple of 4, and every
successfully encoded bundle (8-byte marker + 8-byte timetag +
size-prefixed elements) has byte length a multiple of 4. -/
theorem C6_padding_invariant :
    (∀ (addr : List ℕ) (args : List OscValue),
      (createOSCMessage addr args).length % 4 = 0) ∧
    (∀ (msgs : List (List ℕ × List OscValue)) (t : ℕ) (b : List ℕ),
      createOSCBundle msgs t = some b → b.length % 4 = 0) :=
  ⟨createOSCMessage_length_mod, createOSCBundle_length_mod⟩

/-- Witness for C6: the empty bundle with the immediate timetag. -/
theorem C6_padding_invariant_witness :
    createOSCBundle [] 0 = some [35, 98, 117, 110, 100, 108, 101, 0,
        0, 0, 0, 0, 0, 0, 0, 1] ∧
    ([35, 98, 117, 110, 100, 108, 101, 0, 0, 0, 0, 0, 0, 0, 0, 1] : List ℕ).length % 4
      = 0 :=
  ⟨by decide, C6_padding_invariant.2 [] 0 _ (by decide)⟩

/-- C7 (counterexample): the claim fails as stated for the non-zero
`unix_millis = 2085978496000` (February 2036, the NTP era rollover):
its NTP seconds value `2085978496000 / 1000 + 2208988800 = 2^32` is
out of range for `writeUInt32BE`, so `createOSCTimetag` throws
(modelled `none`) and nothing can be decoded back. -/
theorem C7_counterexample :
    createOSCTimetag 2085978496000 = none ∧ (2085978496000 : ℕ) ≠ 0 := by
  constructor
  · norm_num [createOSCTimetag, jsRound]
  · decide

/-- C7 (amended): for every non-zero `unix_millis` whose NTP seconds
value `unix_millis / 1000 + 2208988800` fits an unsigned 32-bit write
(i.e. `unix_millis < 2085978496000`), decoding the encoded timetag
recovers `unix_millis` exactly: the rounded 32-bit fraction
`round((unix_millis mod 1000) / 1000 * 0xFFFFFFFF)` re-rounds to the
original milliseconds with no loss. -/
theorem C7_timetag_fidelity (t : ℕ) (h0 : t ≠ 0)
    (hr : t / 1000 + 2208988800 < 4294967296) :
    ∃ b, createOSCTimetag t = some b ∧ parseOSCTimetag b = (t : ℤ) :=
  createOSCTimetag_roundtrip t h0 hr

/-- Witness for C7: 1500 ms (1.5 s) past the Unix epoch. -/
theorem C7_timetag_fidelity_witness :
    ((1500 : ℕ) ≠ 0 ∧ (1500 : ℕ) / 1000 + 2208988800 < 4294967296) ∧
    ∃ b, createOSCTimetag 1500 = some b ∧ parseOSCTimetag b = (1500 : ℤ) :=
  ⟨⟨by decide, by decide⟩, C7_timetag_fidelity 1500 (by decide) (by decide)⟩

/-- C8: bundle decoding terminates on every input buffer: the element
loop is fuelled by the `elementCount < 100` ceiling, so each bundle
level decodes at most 100 elements; with 100 or more well-formed
elements present the loop returns exactly the first 100 (truncation,
not an error); and every element blob handed to the recursive call is
strictly shorter than the enclosing buffer, so recursion depth is
bounded by the input size. -/
theorem C8_bundle_termination :
    (∀ buf : List ℕ, (bundleElements buf).length ≤ 100) ∧
    (∀ buf : List ℕ, ∀ e ∈ bundleElements buf, e.length < buf.length) ∧
    (∀ (es : List (List ℕ)) (pre rest : List ℕ),
      (∀ e ∈ es, 1 ≤ e.length ∧ e.length < 4294967296) → 100 ≤ es.length →
      bundleElemsAux (pre ++ (elemsBytes es ++ rest)) 100 pre.length = es.take 100) :=
  ⟨fun buf => bundleElemsAux_length_le buf 100 16,
    fun buf => bundleElemsAux_blob_lt buf 100 16,
    fun es pre rest hwf hlen => bundleElemsAux_truncate 100 es pre rest hwf hlen⟩

/-- Witness for C8: 101 one-byte elements are truncated to 100. -/
theorem C8_bundle_termination_witness :
    ((∀ e ∈ List.replicate 101 [7], 1 ≤ e.length ∧ e.length < 4294967296) ∧
      100 ≤ (List.replicate 101 ([7] : List ℕ)).length) ∧
    bundleElemsAux (([] : List ℕ) ++ (elemsBytes (List.replicate 101 [7]) ++ []))
      100 ([] : List ℕ).length = (List.replicate 101 ([7] : List ℕ)).take 100 :=
  ⟨⟨by decide, by decide⟩,
    C8_bundle_termination.2.2 (List.replicate 101 [7]) [] [] (by decide) (by decide)⟩

/-- C9 (counterexample): message decoding can throw.  On the buffer
`2f 61 00 00 2c 69 00 00` — address `"/a"`, type tag `'i'`, payload
missing — `parseOSCMessage` in `src/stop.js` reaches
`readInt32BE(offset)` with only 0 bytes remaining and throws
`ERR_OUT_OF_RANGE` (modelled `Except.error ()`); the maxmsp-compatible
`parseOSCArgs` on the same bytes returns `[]` instead. -/
theorem C9_counterexample :
    stopParseOSCMessage [47, 97, 0, 0, 44, 105, 0, 0] = Except.error () ∧
    parseOSCArgs [47, 97, 0, 0, 44, 105, 0, 0] = [] :=
  ⟨rfl, by decide⟩

/-- C9 (amended): `parseOSCAddress` and `parseOSCArgs` in
`mcp-server-maxmsp-compatible.js` and `parseOSCMessage` in
`part_005` return a typed result on every input buffer (they are
total functions in this embedding: every path is guarded), but
`parseOSCMessage` in `src/stop.js` throws on buffers whose type tags
demand more bytes than remain; on well-formed encoded messages with
`i`/`f`/`s` arguments (the address made of non-NUL, non-surrogate BMP
code units) it, too, returns a typed result — `stop.js` builds strings
with `.toString()` (a UTF-8 decode), so both address and string
arguments come back exactly, ASCII or not. -/
theorem C9_typed_results (addr : List ℕ) (args : List OscValue)
    (haddr : ∀ b ∈ addr, b ≠ 0) (hvu : ∀ c ∈ addr, validUnit c = true)
    (hwf : ∀ v ∈ args, WFValue v = true)
    (hnt : ∀ v ∈ args, isTFN v = false) :
    stopParseOSCMessage (createOSCMessage addr args)
      = Except.ok (addr, args.map toJSVal) :=
  stopParse_encode addr args haddr (fun c hc => validUnit_lt c (hvu c hc)) hwf hnt

/-- Witness for C9: a concrete well-formed message decoded by the
`stop.js` parser. -/
theorem C9_typed_results_witness :
    ((∀ b ∈ ([47, 97] : List ℕ), b ≠ 0) ∧
      (∀ c ∈ ([47, 97] : List ℕ), validUnit c = true) ∧
      (∀ v ∈ [OscValue.i32 5, OscValue.str [104, 105]], WFValue v = true) ∧
      (∀ v ∈ [OscValue.i32 5, OscValue.str [104, 105]], isTFN v = false)) ∧
    stopParseOSCMessage (createOSCMessage [47, 97]
        [OscValue.i32 5, OscValue.str [104, 105]])
      = Except.ok ([47, 97],
          [OscValue.i32 5, OscValue.str [104, 105]].map toJSVal) :=
  ⟨⟨by decide, by decide, by decide, by decide⟩,
    C9_typed_results [47, 97] [OscValue.i32 5, OscValue.str [104, 105]]
      (by decide) (by decide) (by decide) (by decide)⟩

/-- C10 (counterexample): the three decoders are not equivalent, in
two independent ways.  (1) On the buffer `2f 61 00 00 2c 54 00 00`
(address `"/a"`, tag string `",T"`), `parseOSCMessage` of `part_005`
decodes the argument list `[true]` — its `'T'` case has no bounds
check — while `parseOSCArgs` of `mcp-server-maxmsp-compatible.js`
decodes `[]`, because its `offset + 4 > buffer.length` break runs
before the tag `switch`.  (2) On the encoding of `Str("é")` (payload
bytes `c3 a9`), `stop.js` — which builds strings with `.toString()`,
a UTF-8 decode — returns the one-unit string `[233]`, while
`parseOSCArgs` — one `String.fromCharCode` per byte — returns the
two-unit string `[195, 169]`. -/
theorem C10_counterexample :
    (part005Parse [47, 97, 0, 0, 44, 84, 0, 0] = ([47, 97], [JSVal.bool true]) ∧
      parseOSCArgs [47, 97, 0, 0, 44, 84, 0, 0] = [] ∧
      ([JSVal.bool true] : List JSVal) ≠ []) ∧
    (stopParseOSCMessage [47, 97, 0, 0, 44, 115, 0, 0, 195, 169, 0, 0]
        = Except.ok ([47, 97], [JSVal.str [233]]) ∧
      parseOSCArgs [47, 97, 0, 0, 44, 115, 0, 0, 195, 169, 0, 0]
        = [JSVal.str [195, 169]] ∧
      (JSVal.str [233] : JSVal) ≠ JSVal.str [195, 169]) := by
  refine ⟨⟨by decide, by decide, by decide⟩, ⟨rfl, by decide, by decide⟩⟩

/-- C10 (amended): the three decoders agree on well-formed encoded
messages whose address is non-empty ASCII (NUL-free) and whose
arguments are drawn from `{Int32, Float32, Str}` (in-range, NUL-free
ASCII strings): all three produce the same decoded address and the
same argument list.  They disagree on `'T'`/`'F'`/`'N'` tags near the
end of the buffer (`part_005` decodes them, `parseOSCArgs` breaks,
`stop.js` ignores them everywhere), on unknown tags (`parseOSCArgs`
skips 4 bytes, the other two skip none), on truncated `i`/`f`
payloads (`stop.js` throws), and on non-ASCII strings (`stop.js`
UTF-8-decodes the payload where the other two return its raw bytes as
code units, `C10_counterexample`). -/
theorem C10_decoder_agreement (addr : List ℕ) (args : List OscValue)
    (hne : addr ≠ []) (haddr : ∀ b ∈ addr, b ≠ 0)
    (hasca : ∀ c ∈ addr, c < 128)
    (hwf : ∀ v ∈ args, WFValue v = true) (hnt : ∀ v ∈ args, isTFN v = false)
    (hasc : ∀ v ∈ args, asciiStr v = true) :
    part005Parse (createOSCMessage addr args) = (addr, args.map toJSVal) ∧
    (parseOSCAddress (createOSCMessage addr args),
      parseOSCArgs (createOSCMessage addr args)) = (addr, args.map toJSVal) ∧
    stopParseOSCMessage (createOSCMessage addr args)
      = Except.ok (addr, args.map toJSVal) := by
  have hu : ∀ c ∈ addr, c < 65536 := fun c hc => by
    have := hasca c hc; omega
  have huE : utf8Encode addr = addr := utf8Encode_ascii addr hasca
  refine ⟨?_, ?_, stopParse_encode addr args haddr hu hwf hnt⟩
  · rw [part005Parse_encode addr args haddr hwf hnt, huE,
      map_decodedVal_eq args hasc]
  · rw [parseOSCAddress_encode addr args hne haddr hu,
      parseOSCArgs_encode addr args haddr hwf, trimTFN_eq_self_of_noTFN args hnt,
      map_decodedVal_eq args hasc]

/-- Witness for C10: the three decoders agree on a concrete message. -/
theorem C10_decoder_agreement_witness :
    (([47, 97] : List ℕ) ≠ [] ∧ (∀ b ∈ ([47, 97] : List ℕ), b ≠ 0) ∧
      (∀ c ∈ ([47, 97] : List ℕ), c < 128) ∧
      (∀ v ∈ [OscValue.i32 5, OscValue.f32 1138491392, OscValue.str [104, 105]],
        WFValue v = true) ∧
      (∀ v ∈ [OscValue.i32 5, OscValue.f32 1138491392, OscValue.str [104, 105]],
        isTFN v = false) ∧
      (∀ v ∈ [OscValue.i32 5, OscValue.f32 1138491392, OscValue.str [104, 105]],
        asciiStr v = true)) ∧
    (part005Parse (createOSCMessage [47, 97]
        [OscValue.i32 5, OscValue.f32 1138491392, OscValue.str [104, 105]])
      = ([47, 97], [OscValue.i32 5, OscValue.f32 1138491392,
          OscValue.str [104, 105]].map toJSVal) ∧
      (parseOSCAddress (createOSCMessage [47, 97]
          [OscValue.i32 5, OscValue.f32 1138491392, OscValue.str [104, 105]]),
        parseOSCArgs (createOSCMessage [47, 97]
          [OscValue.i32 5, OscValue.f32 1138491392, OscValue.str [104, 105]]))
        = ([47, 97], [OscValue.i32 5, OscValue.f32 1138491392,
            OscValue.str [104, 105]].map toJSVal) ∧
      stopParseOSCMessage (createOSCMessage [47, 97]
          [OscValue.i32 5, OscValue.f32 1138491392, OscValue.str [104, 105]])
        = Except.ok ([47, 97], [OscValue.i32 5, OscValue.f32 1138491392,
            OscValue.str [104, 105]].map toJSVal)) :=
  ⟨⟨by decide, by decide, by decide, by decide, by decide, by decide⟩,
    C10_decoder_agreement [47, 97]
      [OscValue.i32 5, OscValue.f32 1138491392, OscValue.str [104, 105]]
      (by decide) (by decide) (by decide) (by decide) (by decide) (by decide)⟩

end MCP2OSC
